import Mathlib

/-!
Verification of the expression-graph kernel in
`source/wip/data-structures-1/demonstration.py`: a hash-consed DAG of
symbolic expressions, a topological linearizer, a generic operator-table
evaluator, and forward/reverse automatic differentiation.

Modelling conventions.

The Python kernel maintains a global-uniqueness (hash-consing) invariant:
structurally identical construction requests return the very same object,
so object identity coincides with structural identity of the construction
keys.  We exploit this invariant (verified separately against an explicit
heap model, see the `Heap` section) to embed expressions as an inductive
type `Expr` whose structural equality models Python reference equality.

`AtomExpression(atom_type, value)` keys on `(atom_type, value, type(value))`;
the `type(value)` component is folded into the constructor tag of `PyLit`.
`TreeExpression(*children)` stores `children` with `head = children[0]` and
`args = children[1:]`; `children[0]` is evaluated at construction time, so a
compound node always has at least one child, which the constructor
`Expr.tree head args` (children = `head :: args`) captures.  The repository
can place raw (non-`Expression`) Python values such as the literal `1` from
`e - 1` as children of a `TreeExpression`; the constructor `Expr.raw`
represents those.  A raw value has no `children` attribute, so traversing a
graph that contains one raises `AttributeError` in Python; theorems about
traversals therefore carry an `allExpression` hypothesis restricting to
graphs whose nodes are all `Expression` instances, which is every graph the
repository's own API builds.
-/

deriving instance DecidableEq for Except

namespace Demonstration

/-- AtomType: identifier distinguishing kinds of atoms, compared by identity.
The repository instantiates it exactly three times, with distinct names
(`Integer`, `Symbol`, `Function`), so name equality models identity. -/
structure AtomType where
  name : String
deriving DecidableEq, Repr

/-- PyLit: a hashable native Python value stored inside an atom (or appearing
raw as a child).  The constructor tag plays the role of `type(value)` in the
interning key `(atom_type, value, type(value))`. -/
inductive PyLit where
  | int (n : Int)
  | str (s : String)
deriving DecidableEq, Repr

/-- Expression: a hash-consed DAG node.  `atom` models `AtomExpression`
(no children, an internal value), `tree` models `TreeExpression`
(children = `head :: args`), and `raw` models a non-`Expression` Python
value appearing as a child of a `TreeExpression`.  By the global-uniqueness
invariant of the interning tables, structural equality of this type models
Python reference equality (`==`/`is` on `Expression` default to identity). -/
inductive Expr where
  | atom (atom_type : AtomType) (value : PyLit)
  | tree (head : Expr) (args : List Expr)
  | raw (value : PyLit)

mutual

def Expr.beq : Expr → Expr → Bool
  | .atom t v, .atom t' v' => t == t' && v == v'
  | .tree h a, .tree h' a' => Expr.beq h h' && Expr.beqList a a'
  | .raw v, .raw v' => v == v'
  | _, _ => false

def Expr.beqList : List Expr → List Expr → Bool
  | [], [] => true
  | a :: as, b :: bs => Expr.beq a b && Expr.beqList as bs
  | _, _ => false

end

mutual

theorem Expr.eq_of_beq : ∀ {a b : Expr}, Expr.beq a b = true → a = b
  | .atom t v, .atom t' v', h => by
    simp only [Expr.beq, Bool.and_eq_true, beq_iff_eq] at h
    simp [h.1, h.2]
  | .tree h a, .tree h' a', hb => by
    simp only [Expr.beq, Bool.and_eq_true] at hb
    have e1 := Expr.eq_of_beq hb.1
    have e2 := Expr.eqList_of_beqList hb.2
    simp [e1, e2]
  | .raw v, .raw v', h => by
    simp only [Expr.beq, beq_iff_eq] at h
    simp [h]

theorem Expr.eqList_of_beqList : ∀ {as bs : List Expr}, Expr.beqList as bs = true → as = bs
  | [], [], _ => rfl
  | a :: as, b :: bs, h => by
    simp only [Expr.beqList, Bool.and_eq_true] at h
    have e1 := Expr.eq_of_beq h.1
    have e2 := Expr.eqList_of_beqList h.2
    simp [e1, e2]

end

mutual

theorem Expr.beq_refl : ∀ (a : Expr), Expr.beq a a = true
  | .atom t v => by simp [Expr.beq]
  | .tree h a => by
    simp only [Expr.beq, Bool.and_eq_true]
    exact ⟨Expr.beq_refl h, Expr.beqList_refl a⟩
  | .raw v => by simp [Expr.beq]

theorem Expr.beqList_refl : ∀ (as : List Expr), Expr.beqList as as = true
  | [] => rfl
  | a :: as => by
    simp only [Expr.beqList, Bool.and_eq_true]
    exact ⟨Expr.beq_refl a, Expr.beqList_refl as⟩

end

instance : DecidableEq Expr := fun a b =>
  decidable_of_iff (Expr.beq a b = true)
    ⟨Expr.eq_of_beq, fun h => h ▸ Expr.beq_refl a⟩

/-- Children of a node: `()` for an `AtomExpression`, the stored tuple
`(head, *args)` for a `TreeExpression`.  A raw value has no `children`
attribute in Python; it is given no children here and theorems about
traversals exclude it via `allExpression`. -/
def Expr.children : Expr → List Expr
  | .atom _ _ => []
  | .tree h args => h :: args
  | .raw _ => []

mutual

/-- Every node of the graph is an `Expression` instance (no raw Python value
anywhere).  All graphs built by the repository's own constructors satisfy
this. -/
def Expr.allExpression : Expr → Bool
  | .atom _ _ => true
  | .tree h args => Expr.allExpression h && Expr.allExpressionList args
  | .raw _ => false

def Expr.allExpressionList : List Expr → Bool
  | [] => true
  | c :: rest => Expr.allExpression c && Expr.allExpressionList rest

end

-- ----------------------------------------------------------------- --
--   The basic expression types defined by the module                 --
-- ----------------------------------------------------------------- --

def Integer : AtomType := ⟨"Integer"⟩
def Symbol : AtomType := ⟨"Symbol"⟩
def Function : AtomType := ⟨"Function"⟩

/-- Calling an `AtomType` constructs (interns) the atomic expression. -/
def AtomType.call (t : AtomType) (value : PyLit) : Expr := Expr.atom t value

/-- `Expression.__call__`: any expression may be used as a head;
calling it constructs (interns) `TreeExpression(head, *args)`. -/
def Expr.call (head : Expr) (args : List Expr) : Expr := Expr.tree head args

def Add : Expr := Function.call (.str "Add")
def Mul : Expr := Function.call (.str "Mul")
def Pow : Expr := Function.call (.str "Pow")

def x : Expr := Symbol.call (.str "x")
def y : Expr := Symbol.call (.str "y")
def sin : Expr := Function.call (.str "sin")
def cos : Expr := Function.call (.str "cos")

def one : Expr := Integer.call (.int 1)
def negone : Expr := Integer.call (.int (-1))
def zero : Expr := Integer.call (.int 0)

/-- `Expression.__neg__`: `Mul(Integer(-1), self)`. -/
def Expr.neg (a : Expr) : Expr := Mul.call [negone, a]

/-- `Expression.__sub__`: `Add(self, Mul(Integer(-1), other))`.  The
`other` operand may be a raw Python value (as in `e - 1` inside the
`derivatives` table). -/
def Expr.sub (a other : Expr) : Expr := Add.call [a, Mul.call [negone, other]]

-- ----------------------------------------------------------------- --
--   topological_sort                                                 --
-- ----------------------------------------------------------------- --

/-!
`topological_sort` runs an explicit work-stack postorder traversal: each
stack frame holds a node and its not-yet-scanned children (left to right);
a child not in `seen` is added to `seen` and pushed, and a node whose
children are exhausted is popped and emitted.  The recursive functions
below are the exact functional reading of that loop: `visitExpr e seen out`
processes one pushed frame to completion (scan children, then emit `e`) and
`visitChildren cs seen out` scans a list of remaining children.  The root
frame is pushed without being added to `seen`, exactly as in the source.
In `visitExpr` the scan of `children = head :: args` is written with the
head iteration unrolled so that the recursion is structural. -/

mutual

def visitExpr : Expr → List Expr → List Expr → List Expr × List Expr
  | .atom t v, seen, out => (seen, out ++ [Expr.atom t v])
  | .raw v, seen, out => (seen, out ++ [Expr.raw v])
  | .tree h args, seen, out =>
    let s :=
      if h ∈ seen then visitChildren args seen out
      else
        let s0 := visitExpr h (h :: seen) out
        visitChildren args s0.1 s0.2
    (s.1, s.2 ++ [Expr.tree h args])

def visitChildren : List Expr → List Expr → List Expr → List Expr × List Expr
  | [], seen, out => (seen, out)
  | c :: rest, seen, out =>
    if c ∈ seen then
      visitChildren rest seen out
    else
      let s := visitExpr c (c :: seen) out
      visitChildren rest s.1 s.2

end

/-- The unrolled head iteration in `visitExpr` is exactly one step of the
uniform children scan. -/
theorem visitExpr_tree (h : Expr) (args : List Expr) (seen out : List Expr) :
    visitExpr (.tree h args) seen out =
      (let s := visitChildren (h :: args) seen out
       (s.1, s.2 ++ [Expr.tree h args])) := by
  simp [visitExpr, visitChildren]

/-- List of subexpressions sorted topologically (children before parents),
shared subgraphs collapsed to a single occurrence by the `seen` set. -/
def topological_sort (expression : Expr) : List Expr :=
  (visitExpr expression [] []).2

-- The docstring example of `topological_sort`:
-- `topological_sort(f(f(x, y), f(f(x)))) = [f, x, y, f(x, y), f(x), f(f(x)), f(f(x, y), f(f(x)))]`
example :
    letI f : Expr := Function.call (.str "f")
    topological_sort (f.call [f.call [x, y], f.call [f.call [x]]]) =
      letI f : Expr := Function.call (.str "f")
      [f, x, y, f.call [x, y], f.call [x], f.call [f.call [x]],
       f.call [f.call [x, y], f.call [f.call [x]]]] := by decide

-- ----------------------------------------------------------------- --
--   Reachability (the set of nodes of a DAG) and a size measure      --
-- ----------------------------------------------------------------- --

mutual

/-- Number of nodes of the expression counted as a tree (used only as a
termination/acyclicity measure in proofs). -/
def esize : Expr → Nat
  | .atom _ _ => 1
  | .raw _ => 1
  | .tree h args => 1 + esize h + esizeList args

def esizeList : List Expr → Nat
  | [] => 0
  | c :: rest => esize c + esizeList rest

end

mutual

/-- All nodes reachable from `e` (with repetitions); membership in this list
is the reachability predicate the spec's "every reachable node" refers to. -/
def subexprs : Expr → List Expr
  | .atom t v => [.atom t v]
  | .raw v => [.raw v]
  | .tree h args => .tree h args :: (subexprs h ++ subexprsList args)

def subexprsList : List Expr → List Expr
  | [] => []
  | c :: rest => subexprs c ++ subexprsList rest

end

theorem esize_pos : ∀ e : Expr, 0 < esize e
  | .atom _ _ => Nat.one_pos
  | .raw _ => Nat.one_pos
  | .tree _ _ => by simp only [esize]; omega

theorem self_mem_subexprs : ∀ e : Expr, e ∈ subexprs e
  | .atom t v => by simp [subexprs]
  | .raw v => by simp [subexprs]
  | .tree h args => by simp [subexprs]

theorem esize_le_esizeList_of_mem {c : Expr} : ∀ {cs : List Expr}, c ∈ cs → esize c ≤ esizeList cs
  | [], h => by simp at h
  | d :: rest, h => by
    rcases List.mem_cons.mp h with rfl | h
    · simp only [esizeList]; omega
    · have := esize_le_esizeList_of_mem h
      simp only [esizeList]; omega

/-- A child is strictly smaller than its parent. -/
theorem esize_lt_of_mem_children {c e : Expr} (h : c ∈ e.children) : esize c < esize e := by
  cases e with
  | atom t v => simp [Expr.children] at h
  | raw v => simp [Expr.children] at h
  | tree hd args =>
    simp only [Expr.children, List.mem_cons] at h
    rcases h with rfl | h
    · simp only [esize]; omega
    · have := esize_le_esizeList_of_mem h
      simp only [esize]; omega

mutual

theorem esize_le_of_mem_subexprs : ∀ {d e : Expr}, d ∈ subexprs e → esize d ≤ esize e
  | d, .atom t v, h => by
    simp only [subexprs, List.mem_singleton] at h
    exact h ▸ le_refl _
  | d, .raw v, h => by
    simp only [subexprs, List.mem_singleton] at h
    exact h ▸ le_refl _
  | d, .tree hd args, h => by
    simp only [subexprs, List.mem_cons, List.mem_append] at h
    rcases h with rfl | h | h
    · exact le_refl _
    · have := esize_le_of_mem_subexprs h
      simp only [esize]; omega
    · have := esize_le_of_mem_subexprsList h
      simp only [esize]; omega

theorem esize_le_of_mem_subexprsList : ∀ {d : Expr} {cs : List Expr},
    d ∈ subexprsList cs → esize d ≤ esizeList cs
  | d, [], h => by simp [subexprsList] at h
  | d, c :: rest, h => by
    simp only [subexprsList, List.mem_append] at h
    rcases h with h | h
    · have := esize_le_of_mem_subexprs h
      simp only [esizeList]; omega
    · have := esize_le_of_mem_subexprsList h
      simp only [esizeList]; omega

end

theorem mem_subexprsList_of_mem_subexprs {d c : Expr} {cs : List Expr} (hc : c ∈ cs)
    (hd : d ∈ subexprs c) : d ∈ subexprsList cs := by
  induction cs with
  | nil => simp at hc
  | cons a rest ih =>
    simp only [subexprsList, List.mem_append]
    rcases List.mem_cons.mp hc with rfl | hc
    · exact Or.inl hd
    · exact Or.inr (ih hc)

theorem mem_subexprs_of_mem_children {c e : Expr} (h : c ∈ e.children) : c ∈ subexprs e := by
  cases e with
  | atom t v => simp [Expr.children] at h
  | raw v => simp [Expr.children] at h
  | tree hd args =>
    simp only [Expr.children, List.mem_cons] at h
    simp only [subexprs, List.mem_cons, List.mem_append]
    rcases h with rfl | h
    · exact Or.inr (Or.inl (self_mem_subexprs _))
    · exact Or.inr (Or.inr (mem_subexprsList_of_mem_subexprs h (self_mem_subexprs _)))

mutual

/-- Reachability is transitive: a node of a child's subgraph is a node of
the parent's subgraph. -/
theorem subexprs_trans : ∀ {d c e : Expr}, d ∈ subexprs c → c ∈ subexprs e → d ∈ subexprs e
  | d, c, .atom t v, hdc, hce => by
    simp only [subexprs, List.mem_singleton] at hce
    exact hce ▸ hdc
  | d, c, .raw v, hdc, hce => by
    simp only [subexprs, List.mem_singleton] at hce
    exact hce ▸ hdc
  | d, c, .tree hd args, hdc, hce => by
    simp only [subexprs, List.mem_cons, List.mem_append] at hce ⊢
    rcases hce with rfl | hce | hce
    · simpa [subexprs] using hdc
    · exact Or.inr (Or.inl (subexprs_trans hdc hce))
    · exact Or.inr (Or.inr (subexprsList_trans hdc hce))

theorem subexprsList_trans : ∀ {d c : Expr} {cs : List Expr},
    d ∈ subexprs c → c ∈ subexprsList cs → d ∈ subexprsList cs
  | d, c, [], _, hce => by simp [subexprsList] at hce
  | d, c, a :: rest, hdc, hce => by
    simp only [subexprsList, List.mem_append] at hce ⊢
    rcases hce with hce | hce
    · exact Or.inl (subexprs_trans hdc hce)
    · exact Or.inr (subexprsList_trans hdc hce)

end

/-- A strict subexpression is strictly smaller, hence no node is a strict
subexpression of itself (the graphs are acyclic). -/
theorem esize_lt_of_mem_subexprs_children {d c e : Expr} (hc : c ∈ e.children)
    (hd : d ∈ subexprs c) : esize d < esize e :=
  lt_of_le_of_lt (esize_le_of_mem_subexprs hd) (esize_lt_of_mem_children hc)

theorem not_mem_subexprs_children {c e : Expr} (hc : c ∈ e.children) : e ∉ subexprs c :=
  fun h => absurd (esize_lt_of_mem_subexprs_children hc h) (lt_irrefl _)

theorem mem_subexprsList_iff {z : Expr} {cs : List Expr} :
    z ∈ subexprsList cs ↔ ∃ c ∈ cs, z ∈ subexprs c := by
  induction cs with
  | nil => simp [subexprsList]
  | cons a rest ih =>
    simp only [subexprsList, List.mem_append, ih, List.mem_cons]
    constructor
    · rintro (h | ⟨c, hc, hz⟩)
      · exact ⟨a, Or.inl rfl, h⟩
      · exact ⟨c, Or.inr hc, hz⟩
    · rintro ⟨c, rfl | hc, hz⟩
      · exact Or.inl hz
      · exact Or.inr ⟨c, hc, hz⟩

-- ----------------------------------------------------------------- --
--   Correctness of the traversal                                     --
-- ----------------------------------------------------------------- --

/-- Topological ordering of an emitted list: wherever a node occurs, all of
its children occur strictly earlier (in the strict prefix). -/
def Ordered (out : List Expr) : Prop :=
  ∀ l1 n l2, out = l1 ++ n :: l2 → ∀ c ∈ n.children, c ∈ l1

theorem Ordered.nil : Ordered [] := by
  intro l1 n l2 h
  simp at h

theorem Ordered.append_singleton {out : List Expr} {e : Expr} (ho : Ordered out)
    (he : ∀ c ∈ e.children, c ∈ out) : Ordered (out ++ [e]) := by
  intro l1 n l2 heq c hc
  rcases List.append_eq_append_iff.mp heq with ⟨a, ha1, ha2⟩ | ⟨a, ha1, ha2⟩
  · -- l1 = out ++ a and [e] = a ++ n :: l2, forcing a = [], n = e, l2 = []
    cases a with
    | nil =>
      simp only [List.nil_append, List.cons.injEq] at ha2
      obtain ⟨rfl, _⟩ := ha2
      simp only [List.append_nil] at ha1
      exact ha1 ▸ he c hc
    | cons b bs =>
      simp only [List.cons_append, List.cons.injEq] at ha2
      obtain ⟨rfl, hnil⟩ := ha2
      exact absurd hnil (by simp)
  · -- out = l1 ++ a and n :: l2 = a ++ [e]
    cases a with
    | nil =>
      simp only [List.nil_append, List.cons.injEq] at ha2
      obtain ⟨rfl, _⟩ := ha2
      simp only [List.append_nil] at ha1
      exact ha1 ▸ he c hc
    | cons b bs =>
      simp only [List.cons_append, List.cons.injEq] at ha2
      obtain ⟨rfl, _⟩ := ha2
      exact ho l1 n bs ha1 c hc

/-- Invariant on the `seen` set relative to the node currently being
visited: every seen node is either finished (already emitted, with its
whole subgraph seen) or lies on the current traversal path, so the current
node is among its subexpressions. -/
def SeenInv (cur : Expr) (seen out : List Expr) : Prop :=
  ∀ z ∈ seen, (z ∈ out ∧ ∀ w ∈ subexprs z, w ∈ seen) ∨ cur ∈ subexprs z

/-- Postcondition of `visitExpr e seen out = (seen', out')`, with `Δ` the
freshly emitted sublist preceding `e` itself. -/
structure EPost (e : Expr) (seen out seen' out' Δ : List Expr) : Prop where
  out_eq : out' = out ++ Δ ++ [e]
  mono : ∀ z ∈ seen, z ∈ seen'
  sub : ∀ d ∈ Δ, d ∈ subexprs e ∧ esize d < esize e
  fresh : ∀ d ∈ Δ, d ∈ seen' ∧ d ∉ seen
  seen_char : ∀ z ∈ seen', z ∈ seen ∨ z ∈ Δ
  nodup : (Δ ++ [e]).Nodup
  complete : ∀ z ∈ subexprs e, z ∈ seen' ∨ z = e
  closed : ∀ d ∈ Δ, ∀ w ∈ subexprs d, w ∈ seen'
  ordered : Ordered out → Ordered out'

/-- Postcondition of `visitChildren cs seen out = (seen', out')` where `cs`
is a suffix of the children of the node currently being visited. -/
structure KPost (cs seen out seen' out' Δ : List Expr) : Prop where
  out_eq : out' = out ++ Δ
  mono : ∀ z ∈ seen, z ∈ seen'
  sub : ∀ d ∈ Δ, ∃ c ∈ cs, d ∈ subexprs c
  fresh : ∀ d ∈ Δ, d ∈ seen' ∧ d ∉ seen
  seen_char : ∀ z ∈ seen', z ∈ seen ∨ z ∈ Δ
  nodup : Δ.Nodup
  complete : ∀ c ∈ cs, ∀ z ∈ subexprs c, z ∈ seen'
  members : ∀ c ∈ cs, c ∈ out'
  closed : ∀ d ∈ Δ, ∀ w ∈ subexprs d, w ∈ seen'
  ordered : Ordered out → Ordered out'

theorem EPost_leaf {e : Expr} (hch : e.children = []) (hsub : subexprs e = [e])
    (seen out : List Expr) : EPost e seen out seen (out ++ [e]) [] where
  out_eq := by simp
  mono := fun z hz => hz
  sub := by simp
  fresh := by simp
  seen_char := fun z hz => Or.inl hz
  nodup := by simp
  complete := fun z hz => by
    rw [hsub, List.mem_singleton] at hz
    exact Or.inr hz
  closed := by simp
  ordered := fun ho => ho.append_singleton (by simp [hch])

theorem KPost_nil (seen out : List Expr) : KPost [] seen out seen out [] where
  out_eq := by simp
  mono := fun z hz => hz
  sub := by simp
  fresh := by simp
  seen_char := fun z hz => Or.inl hz
  nodup := by simp
  complete := by simp
  members := by simp
  closed := by simp
  ordered := fun ho => ho

theorem EPost_node {hd : Expr} {args seen out k1 k2 Δ : List Expr}
    (K : KPost (hd :: args) seen out k1 k2 Δ) :
    EPost (.tree hd args) seen out k1 (k2 ++ [.tree hd args]) Δ where
  out_eq := by simp [K.out_eq]
  mono := K.mono
  sub := fun d hd' => by
    obtain ⟨c, hc, hsub⟩ := K.sub d hd'
    have hc' : c ∈ (Expr.tree hd args).children := by simpa [Expr.children] using hc
    exact ⟨subexprs_trans hsub (mem_subexprs_of_mem_children hc'),
      esize_lt_of_mem_subexprs_children hc' hsub⟩
  fresh := K.fresh
  seen_char := K.seen_char
  nodup := by
    rw [List.nodup_append]
    refine ⟨K.nodup, List.nodup_singleton _, ?_⟩
    intro a ha hb
    simp only [List.mem_singleton] at hb
    subst hb
    obtain ⟨c, hc, hsub⟩ := K.sub _ ha
    have hc' : c ∈ (Expr.tree hd args).children := by simpa [Expr.children] using hc
    exact absurd (esize_lt_of_mem_subexprs_children hc' hsub) (lt_irrefl _)
  complete := fun z hz => by
    simp only [subexprs, List.mem_cons, List.mem_append] at hz
    rcases hz with rfl | hz | hz
    · exact Or.inr rfl
    · exact Or.inl (K.complete hd (by simp) z hz)
    · obtain ⟨c, hc, hz⟩ := mem_subexprsList_iff.mp hz
      exact Or.inl (K.complete c (by simp [hc]) z hz)
  closed := K.closed
  ordered := fun ho =>
    (K.ordered ho).append_singleton fun c hc =>
      K.members c (show c ∈ hd :: args from hc)

theorem KPost_skip {p c : Expr} {cs seen out seen' out' Δ : List Expr}
    (hinv : SeenInv p seen out) (hc : c ∈ seen) (hsize : esize c < esize p)
    (K : KPost cs seen out seen' out' Δ) : KPost (c :: cs) seen out seen' out' Δ := by
  have hfin : c ∈ out ∧ ∀ w ∈ subexprs c, w ∈ seen := by
    rcases hinv c hc with h | h
    · exact h
    · exact absurd (esize_le_of_mem_subexprs h) (by omega)
  exact
    { out_eq := K.out_eq
      mono := K.mono
      sub := fun d hd' => by
        obtain ⟨c', hc', hsub⟩ := K.sub d hd'
        exact ⟨c', List.mem_cons_of_mem _ hc', hsub⟩
      fresh := K.fresh
      seen_char := K.seen_char
      nodup := K.nodup
      complete := fun c' hc' z hz => by
        rcases List.mem_cons.mp hc' with rfl | hc'
        · exact K.mono z (hfin.2 z hz)
        · exact K.complete c' hc' z hz
      members := fun c' hc' => by
        rcases List.mem_cons.mp hc' with rfl | hc'
        · exact K.out_eq ▸ List.mem_append_left _ hfin.1
        · exact K.members c' hc'
      closed := K.closed
      ordered := K.ordered }

theorem seenInv_push {p c : Expr} {seen out : List Expr} (hinv : SeenInv p seen out)
    (hcp : c ∈ subexprs p) : SeenInv c (c :: seen) out := by
  intro z hz
  rcases List.mem_cons.mp hz with rfl | hz
  · exact Or.inr (self_mem_subexprs z)
  · rcases hinv z hz with ⟨h1, h2⟩ | h
    · exact Or.inl ⟨h1, fun w hw => List.mem_cons_of_mem _ (h2 w hw)⟩
    · exact Or.inr (subexprs_trans hcp h)

theorem seenInv_after {p c : Expr} {seen out s1 s2 Δc : List Expr} (hinv : SeenInv p seen out)
    (E : EPost c (c :: seen) out s1 s2 Δc) : SeenInv p s1 s2 := by
  have hc_s1 : c ∈ s1 := E.mono c (List.mem_cons_self c seen)
  intro z hz
  rcases E.seen_char z hz with hz' | hz'
  · rcases List.mem_cons.mp hz' with rfl | hz'
    · refine Or.inl ⟨by simp [E.out_eq], fun w hw => ?_⟩
      rcases E.complete w hw with h | rfl
      · exact h
      · exact hc_s1
    · rcases hinv z hz' with ⟨h1, h2⟩ | h
      · exact Or.inl ⟨by simp [E.out_eq, h1],
          fun w hw => E.mono w (List.mem_cons_of_mem _ (h2 w hw))⟩
      · exact Or.inr h
  · refine Or.inl ⟨?_, E.closed z hz'⟩
    simp [E.out_eq, hz']

theorem KPost_cons {c : Expr} {cs seen out s1 s2 seen' out' Δc Δr : List Expr}
    (hcnot : c ∉ seen)
    (E : EPost c (c :: seen) out s1 s2 Δc)
    (K : KPost cs s1 s2 seen' out' Δr) :
    KPost (c :: cs) seen out seen' out' ((Δc ++ [c]) ++ Δr) := by
  have hc_s1 : c ∈ s1 := E.mono c (List.mem_cons_self c seen)
  have hΔc_s1 : ∀ d ∈ Δc ++ [c], d ∈ s1 := by
    intro d hd'
    rcases List.mem_append.mp hd' with hd' | hd'
    · exact (E.fresh d hd').1
    · exact (List.mem_singleton.mp hd') ▸ hc_s1
  exact
    { out_eq := by simp [K.out_eq, E.out_eq]
      mono := fun z hz => K.mono z (E.mono z (List.mem_cons_of_mem _ hz))
      sub := fun d hd' => by
        rcases List.mem_append.mp hd' with hd' | hd'
        · rcases List.mem_append.mp hd' with hd' | hd'
          · exact ⟨c, List.mem_cons_self _ _, (E.sub d hd').1⟩
          · exact ⟨c, List.mem_cons_self _ _,
              (List.mem_singleton.mp hd') ▸ self_mem_subexprs c⟩
        · obtain ⟨c', hc', hsub⟩ := K.sub d hd'
          exact ⟨c', List.mem_cons_of_mem _ hc', hsub⟩
      fresh := fun d hd' => by
        rcases List.mem_append.mp hd' with hd' | hd'
        · refine ⟨K.mono d (hΔc_s1 d hd'), ?_⟩
          rcases List.mem_append.mp hd' with hd'' | hd''
          · exact fun hmem => (E.fresh d hd'').2 (List.mem_cons_of_mem _ hmem)
          · exact (List.mem_singleton.mp hd'') ▸ hcnot
        · refine ⟨(K.fresh d hd').1, fun hmem => (K.fresh d hd').2 ?_⟩
          exact E.mono d (List.mem_cons_of_mem _ hmem)
      seen_char := fun z hz => by
        rcases K.seen_char z hz with hz' | hz'
        · rcases E.seen_char z hz' with hz'' | hz''
          · rcases List.mem_cons.mp hz'' with rfl | hz''
            · exact Or.inr (by simp)
            · exact Or.inl hz''
          · exact Or.inr (by simp [hz''])
        · exact Or.inr (by simp [hz'])
      nodup := by
        rw [List.nodup_append]
        exact ⟨E.nodup, K.nodup, fun a ha hb => (K.fresh a hb).2 (hΔc_s1 a ha)⟩
      complete := fun c' hc' z hz => by
        rcases List.mem_cons.mp hc' with rfl | hc'
        · rcases E.complete z hz with h | rfl
          · exact K.mono z h
          · exact K.mono z hc_s1
        · exact K.complete c' hc' z hz
      members := fun c' hc' => by
        rcases List.mem_cons.mp hc' with rfl | hc'
        · exact K.out_eq ▸ List.mem_append_left _ (by simp [E.out_eq])
        · exact K.members c' hc'
      closed := fun d hd' w hw => by
        rcases List.mem_append.mp hd' with hd' | hd'
        · rcases List.mem_append.mp hd' with hd'' | hd''
          · exact K.mono w (E.closed d hd'' w hw)
          · obtain rfl := List.mem_singleton.mp hd''
            rcases E.complete w hw with h | rfl
            · exact K.mono w h
            · exact K.mono w hc_s1
        · exact K.closed d hd' w hw
      ordered := fun ho => K.ordered (E.ordered ho) }

/-- One step of unfolding `visitChildren` when the child has been seen. -/
theorem visitChildren_seen {c : Expr} {rest seen out : List Expr} (hc : c ∈ seen) :
    visitChildren (c :: rest) seen out = visitChildren rest seen out := by
  simp [visitChildren, hc]

/-- One step of unfolding `visitChildren` when the child is fresh. -/
theorem visitChildren_fresh {c : Expr} {rest seen out : List Expr} (hc : c ∉ seen) :
    visitChildren (c :: rest) seen out =
      visitChildren rest (visitExpr c (c :: seen) out).1 (visitExpr c (c :: seen) out).2 := by
  simp [visitChildren, hc]

mutual

theorem visitExpr_spec (e : Expr) (seen out : List Expr) (hinv : SeenInv e seen out) :
    ∃ Δ, EPost e seen out (visitExpr e seen out).1 (visitExpr e seen out).2 Δ := by
  match e with
  | .atom t v =>
    exact ⟨[], EPost_leaf (by simp [Expr.children]) (by simp [subexprs]) seen out⟩
  | .raw v =>
    exact ⟨[], EPost_leaf (by simp [Expr.children]) (by simp [subexprs]) seen out⟩
  | .tree hd args =>
    have hcs : ∀ c ∈ hd :: args, c ∈ subexprs (Expr.tree hd args) ∧
        esize c < esize (Expr.tree hd args) := fun c hc =>
      have hc' : c ∈ (Expr.tree hd args).children := by simpa [Expr.children] using hc
      ⟨mem_subexprs_of_mem_children hc', esize_lt_of_mem_children hc'⟩
    obtain ⟨Δ, K⟩ := visitChildren_spec (Expr.tree hd args) (hd :: args) seen out hinv hcs
    rw [visitExpr_tree]
    exact ⟨Δ, EPost_node K⟩
termination_by 2 * esize e
decreasing_by
  simp only [esize, esizeList]
  omega

theorem visitChildren_spec (p : Expr) (cs seen out : List Expr) (hinv : SeenInv p seen out)
    (hcs : ∀ c ∈ cs, c ∈ subexprs p ∧ esize c < esize p) :
    ∃ Δ, KPost cs seen out (visitChildren cs seen out).1 (visitChildren cs seen out).2 Δ := by
  match cs with
  | [] => exact ⟨[], KPost_nil seen out⟩
  | c :: rest =>
    have hrest : ∀ c' ∈ rest, c' ∈ subexprs p ∧ esize c' < esize p :=
      fun c' hc' => hcs c' (List.mem_cons_of_mem _ hc')
    by_cases hc : c ∈ seen
    · obtain ⟨Δ, K⟩ := visitChildren_spec p rest seen out hinv hrest
      rw [visitChildren_seen hc]
      exact ⟨Δ, KPost_skip hinv hc (hcs c (by simp)).2 K⟩
    · obtain ⟨Δc, E⟩ := visitExpr_spec c (c :: seen) out (seenInv_push hinv (hcs c (by simp)).1)
      obtain ⟨Δr, K⟩ := visitChildren_spec p rest _ _ (seenInv_after hinv E) hrest
      rw [visitChildren_fresh hc]
      exact ⟨(Δc ++ [c]) ++ Δr, KPost_cons hc E K⟩
termination_by 2 * esizeList cs + 1
decreasing_by
  all_goals simp only [esize, esizeList]
  all_goals first
    | omega
    | (have hp := esize_pos c; omega)

end

/-- Summary of the traversal correctness at the top level: the emitted list
is the root preceded by a duplicate-free enumeration of its proper
reachable nodes, topologically ordered. -/
theorem topological_sort_spec (e : Expr) :
    ∃ Δ, topological_sort e = Δ ++ [e] ∧ e ∉ Δ ∧ (Δ ++ [e]).Nodup ∧
      (∀ n, n ∈ Δ ++ [e] ↔ n ∈ subexprs e) ∧ Ordered (Δ ++ [e]) := by
  obtain ⟨Δ, E⟩ := visitExpr_spec e [] [] (by intro z hz; simp at hz)
  have hout : topological_sort e = Δ ++ [e] := by
    show (visitExpr e [] []).2 = Δ ++ [e]
    rw [E.out_eq]
    simp
  refine ⟨Δ, hout, ?_, E.nodup, ?_, ?_⟩
  · intro hmem
    exact absurd (E.sub e hmem).2 (lt_irrefl _)
  · intro n
    constructor
    · intro hn
      rcases List.mem_append.mp hn with hΔ | hn
      · exact (E.sub n hΔ).1
      · exact (List.mem_singleton.mp hn) ▸ self_mem_subexprs e
    · intro hn
      rcases E.complete n hn with h | rfl
      · rcases E.seen_char n h with h0 | hΔ
        · simp at h0
        · exact List.mem_append_left _ hΔ
      · simp
  · have ho := E.ordered Ordered.nil
    rw [E.out_eq] at ho
    simpa using ho

theorem topological_sort_nodup (e : Expr) : (topological_sort e).Nodup := by
  obtain ⟨Δ, h1, _, h3, _, _⟩ := topological_sort_spec e
  exact h1 ▸ h3

theorem mem_topological_sort {n : Expr} (e : Expr) :
    n ∈ topological_sort e ↔ n ∈ subexprs e := by
  obtain ⟨Δ, h1, _, _, h4, _⟩ := topological_sort_spec e
  exact h1 ▸ h4 n

theorem topological_sort_ordered (e : Expr) : Ordered (topological_sort e) := by
  obtain ⟨Δ, h1, _, _, _, h5⟩ := topological_sort_spec e
  exact h1 ▸ h5

theorem topological_sort_last (e : Expr) :
    ∃ l, topological_sort e = l ++ [e] ∧ e ∉ l := by
  obtain ⟨Δ, h1, h2, _, _, _⟩ := topological_sort_spec e
  exact ⟨Δ, h1, h2⟩

/-- C3.  Topological validity of linearization: for every expression (every
graph of `Expression` nodes — Python raises `AttributeError` on a graph
with a raw non-`Expression` child, which the `allExpression` hypothesis
excludes), `topological_sort` returns a sequence in which each reachable
node occurs exactly once — the list is duplicate-free and its members are
exactly the reachable nodes, so shared sub-DAGs are collapsed to one
occurrence — and every node appears strictly after all of its children:
wherever a node occurs in the list, each of its children occurs in the
strict prefix before it. -/
theorem topological_sort_topologically_valid (e : Expr) (he : e.allExpression = true) :
    (topological_sort e).Nodup ∧
    (∀ n, n ∈ topological_sort e ↔ n ∈ subexprs e) ∧
    (∀ l1 n l2, topological_sort e = l1 ++ n :: l2 → ∀ c ∈ n.children, c ∈ l1) :=
  ⟨topological_sort_nodup e, fun n => mem_topological_sort e, topological_sort_ordered e⟩

/-- Witness for C3 at the concrete shared-subgraph input `Mul(x, x)`:
`topological_sort(Mul(x, x)) = [Mul, x, Mul(x, x)]`, and the child `x` of
the root occurs strictly before it. -/
theorem topological_sort_topologically_valid_witness :
    (topological_sort (Mul.call [x, x])).Nodup ∧
    Mul.call [x, x] ∈ topological_sort (Mul.call [x, x]) ∧
    x ∈ [Mul, x] := by
  have h := topological_sort_topologically_valid (Mul.call [x, x]) (by decide)
  exact ⟨h.1, (h.2.1 _).mpr (by decide),
    h.2.2 [Mul, x] (Mul.call [x, x]) [] (by decide) x (by decide)⟩

-- ----------------------------------------------------------------- --
--   evaluation_form / evaluate                                       --
-- ----------------------------------------------------------------- --

/-- Python exceptions the evaluator and differentiation engine can raise. -/
inductive PyErr where
  | typeError
  | keyError
  | indexError
  | valueError
  | assertionError
deriving DecidableEq, Repr

/-- Accessor for the `head` attribute of a compound expression (for an
atomic expression `head` is its `AtomType`, which the compound loop never
meets; the default branch is unreachable there). -/
def Expr.headE : Expr → Expr
  | .tree h _ => h
  | e => e

/-- Accessor for the `args` attribute (empty for atoms). -/
def Expr.argsE : Expr → List Expr
  | .tree _ args => args
  | _ => []

/-- An operator table: a mapping whose keys are `AtomType`s (used to
transform atom values) and expressions (used to map compound heads, and to
skip table-key subexpressions from the slot lists).  An `Expression` never
compares equal to an `AtomType`, so the two key spaces are disjoint. -/
structure Operators where
  atomOp : AtomType → Option (PyLit → Expr)
  headOp : Expr → Option (List Expr → Expr)

/-- Membership test `expr in operators` for a subexpression: only the
expression-keyed entries can match. -/
def Operators.isKey (operators : Operators) (s : Expr) : Bool :=
  (operators.headOp s).isSome

/-- The empty operator table `{}`. -/
def emptyOperators : Operators := ⟨fun _ => none, fun _ => none⟩

/-- The function slot of an operation record: `operators.get(head, head)`
resolves to a native table entry if the head is mapped, else to the head
expression itself (whose call reconstructs the node). -/
inductive Func where
  | native (f : List Expr → Expr)
  | headF (h : Expr)

/-- Resolution `operators.get(head, head)`. -/
def resolveFunc (operators : Operators) (h : Expr) : Func :=
  match operators.headOp h with
  | some f => .native f
  | none => .headF h

/-- Calling the function slot: a native entry is applied; a head expression
is called, which interns `TreeExpression(head, *args)`. -/
def Func.apply : Func → List Expr → Expr
  | .native f, args => f args
  | .headF h, args => .tree h args

/-- Comparison `func == a` of a function slot with an expression: a native
table function is a distinct object from any expression, so only a default
head slot can compare equal (reference equality). -/
def Func.eqExpr : Func → Expr → Bool
  | .native _, _ => false
  | .headF h, a => h = a

/-- Transformation of an atom slot: `operators.get(expr.head)` applied to
`expr.value` when present.  (A raw value has no `head` attribute; that
unreachable-under-`allExpression` case is passed through.) -/
def transformAtom (operators : Operators) : Expr → Expr
  | .atom t v =>
    match operators.atomOp t with
    | some f => f v
    | none => .atom t v
  | e => e

/-- Index lookup `[indices[e] for e in expr.args]`; a missing entry raises
`KeyError`. -/
def argIndices (indices : List (Expr × Nat)) : List Expr → Except PyErr (List Nat)
  | [] => .ok []
  | a :: rest =>
    match List.lookup a indices with
    | none => .error .keyError
    | some i => (argIndices indices rest).map fun is => i :: is

/-- The compound loop of `evaluation_form`: for each compound expression in
order, resolve the function slot, look up the argument indices, record the
operation, then assign the compound its own slot index. -/
def buildOps (operators : Operators) :
    List (Expr × Nat) → Nat → List Expr → Except PyErr (List (Func × List Nat))
  | _, _, [] => .ok []
  | indices, index, c :: rest =>
    match argIndices indices c.argsE with
    | .error er => .error er
    | .ok is =>
      match buildOps operators ((c, index) :: indices) (index + 1) rest with
      | .error er => .error er
      | .ok ops => .ok ((resolveFunc operators c.headE, is) :: ops)

/-- `evaluation_form(expression, operators)`: linearize, skip subexpressions
that are table keys, split the rest into atom slots (transformed by the
matching atom-type entry when present) and operation records. -/
def evaluation_form (expression : Expr) (operators : Operators) :
    Except PyErr (List Expr × List (Func × List Nat)) :=
  let subexpressions := topological_sort expression
  let atoms := subexpressions.filter fun s =>
    !operators.isKey s && s.children.isEmpty
  let compound := subexpressions.filter fun s =>
    !operators.isKey s && !s.children.isEmpty
  let indices := atoms.zip (List.range atoms.length)
  match buildOps operators indices atoms.length compound with
  | .error er => .error er
  | .ok operations => .ok (atoms.map (transformAtom operators), operations)

/-- Fetch `[stack[i] for i in indices]`; an out-of-range index raises
`IndexError`. -/
def argValues (stack : List Expr) : List Nat → Except PyErr (List Expr)
  | [] => .ok []
  | i :: rest =>
    match stack.get? i with
    | none => .error .indexError
    | some v => (argValues stack rest).map fun vs => v :: vs

/-- The execution loop of `evaluate`: run the operations strictly in listed
order, appending each result to the stack. -/
def runOps : List (Func × List Nat) → List Expr → Except PyErr (List Expr)
  | [], stack => .ok stack
  | (func, indices) :: rest, stack =>
    match argValues stack indices with
    | .error er => .error er
    | .ok args => runOps rest (stack ++ [func.apply args])

/-- `evaluate(expression, operators, values)`: compute the form, substitute
`values.get(e, e)` over the initial slots, execute the operations in order,
and return the last slot (`stack[-1]`; an empty stack raises `IndexError`). -/
def evaluate (expression : Expr) (operators : Operators) (values : Expr → Option Expr) :
    Except PyErr Expr :=
  match evaluation_form expression operators with
  | .error er => .error er
  | .ok (stack0, operations) =>
    let stack := stack0.map fun s => (values s).getD s
    match runOps operations stack with
    | .error er => .error er
    | .ok stack1 =>
      match stack1.getLast? with
      | some v => .ok v
      | none => .error .indexError

mutual

/-- Compositional (denotational) reading of `evaluate`, following the
specification: an atom slot is its (optionally transformed) value with any
matching binding substituted; a compound node applies its head's table
entry to the values of its arguments, an unmapped head reconstructing the
node itself.  `evaluate` is proved to agree with this reading whenever
table keys occur only in head position. -/
def denote (operators : Operators) (values : Expr → Option Expr) : Expr → Expr
  | .atom t v => (values (transformAtom operators (.atom t v))).getD
      (transformAtom operators (.atom t v))
  | .raw v => (values (.raw v)).getD (.raw v)
  | .tree h args =>
    match operators.headOp h with
    | some f => f (denoteList operators values args)
    | none => .tree h (denoteList operators values args)

def denoteList (operators : Operators) (values : Expr → Option Expr) :
    List Expr → List Expr
  | [] => []
  | a :: rest => denote operators values a :: denoteList operators values rest

end

-- ----------------------------------------------------------------- --
--   rebuild                                                          --
-- ----------------------------------------------------------------- --

/-- `rebuild(atoms, evaluation)` as written in the source.  Its loop is
`for indices in evaluation: args = [stack[i] for i in indices]; ...`: the
loop variable `indices` is bound to each `(function, arg_indices)` pair
itself, so the subscripts `stack[i]` receive the function slot (a function
or head expression) and the index list — neither is an integer, so the
first iteration raises `TypeError`.  With no operations the loop body never
runs and `stack[-1]` returns the last atom (`IndexError` when empty). -/
def rebuild (atoms : List Expr) (evaluation : List (Func × List Nat)) : Except PyErr Expr :=
  match evaluation with
  | [] =>
    match atoms.getLast? with
    | some v => .ok v
    | none => .error .indexError
  | _ :: _ => .error .typeError

/-- Second definition for the round-trip claim, following the spec's words
(and the source docstring `Inverse of evaluation_form(expression, {})`):
replay the recorded operations as graph-construction calls — each function
slot of an empty-table form is a head expression whose call interns
`TreeExpression(head, *args)` — and return the last slot. -/
def rebuildIntended (atoms : List Expr) (evaluation : List (Func × List Nat)) :
    Except PyErr Expr :=
  match runOps evaluation atoms with
  | .error er => .error er
  | .ok stack =>
    match stack.getLast? with
    | some v => .ok v
    | none => .error .indexError

-- ----------------------------------------------------------------- --
--   diff: Differentiation                                            --
-- ----------------------------------------------------------------- --

/-- The chain-rule table `derivatives`, keyed by `(function, position)`
pairs compared by identity: `(sin, 0) ↦ cos` (an expression, so applying it
calls `cos(*args)`), `(cos, 0) ↦ lambda e: -sin(e)` (exactly one positional
argument, else `TypeError`), `(Pow, 0) ↦ lambda b, e: Pow(b, e - 1)`
(exactly two positional arguments; note `e - 1` places the raw Python
integer `1` inside the constructed graph, and note the table has no
`(Pow, 1)` entry). -/
def derivativesGet (func : Func) (n : Nat) : Option (List Expr → Except PyErr Expr) :=
  if func.eqExpr sin ∧ n = 0 then
    some fun args => .ok (cos.call args)
  else if func.eqExpr cos ∧ n = 0 then
    some fun args =>
      match args with
      | [e] => .ok (Expr.neg (sin.call [e]))
      | _ => .error .typeError
  else if func.eqExpr Pow ∧ n = 0 then
    some fun args =>
      match args with
      | [b, e] => .ok (Pow.call [b, Expr.sub e (.raw (.int 1))])
      | _ => .error .typeError
  else none

/-- Combination of a list of derivative terms: none means the zero atom, a
single term stands alone, several are summed (`Add(*diff_terms)`; note the
same pattern applied to an empty adjoint list yields the nullary call
`Add()`, i.e. `TreeExpression(Add)`). -/
def combineTerms : List Expr → Expr
  | [] => zero
  | [t] => t
  | ts => Add.call ts

/-- The `Mul` branch of the forward loop: for each factor whose derivative
is not the zero atom, the term `Mul(*args[:n], diff_arg, *args[n+1:])` —
the derivative replaces the factor in place and no identity factor is
elided. -/
def mulTerms (args : List Expr) : Nat → List Expr → List Expr
  | _, [] => []
  | n, da :: rest =>
    if da = zero then mulTerms args (n + 1) rest
    else Mul.call (args.take n ++ da :: args.drop (n + 1)) :: mulTerms args (n + 1) rest

/-- The default branch of the forward loop: for each argument with nonzero
derivative, look up `derivatives[(func, n)]` (`KeyError` when absent),
apply it to the arguments, and multiply by the derivative unless it is the
unit atom. -/
def namedTerms (func : Func) (args : List Expr) :
    Nat → List Expr → Except PyErr (List Expr)
  | _, [] => .ok []
  | n, da :: rest =>
    if da = zero then namedTerms func args (n + 1) rest
    else
      match derivativesGet func n with
      | none => .error .keyError
      | some pdiff_func =>
        match pdiff_func args with
        | .error er => .error er
        | .ok pdiff =>
          let diff_term := if da ≠ one then Mul.call [pdiff, da] else pdiff
          (namedTerms func args (n + 1) rest).map fun ts => diff_term :: ts

/-- The branch dispatch of the forward loop body, computing the list of
derivative terms of one operation.  `set(diff_args) == {zero}` holds
exactly when the (nonempty) derivative list is all zero atoms.  The `Pow`
branch asserts that the exponent's derivative is the zero atom
(`AssertionError` — the failure the spec names `MalformedDerivative`) and
ignores `diff_args[0]` entirely. -/
def forwardDiffTerms (func : Func) (args diff_args : List Expr) :
    Except PyErr (List Expr) :=
  if diff_args.all (fun d => d = zero) && !diff_args.isEmpty then
    .ok []
  else if func.eqExpr Add then
    .ok (diff_args.filter fun da => da != zero)
  else if func.eqExpr Mul then
    .ok (mulTerms args 0 diff_args)
  else if func.eqExpr Pow then
    match diff_args.get? 1 with
    | none => .error .indexError
    | some d1 =>
      if d1 ≠ zero then .error .assertionError
      else
        match args with
        | [base, exp] => .ok [Mul.call [exp, Pow.call [base, Add.call [exp, negone]]]]
        | _ => .error .valueError
  else
    namedTerms func args 0 diff_args

/-- The forward-accumulation loop of `_diff`: for each operation in listed
order, fetch its primal arguments and their derivatives, push the primal
result `func(*args)` and the combined derivative. -/
def diffLoop : List Expr → List Expr → List (Func × List Nat) →
    Except PyErr (List Expr × List Expr)
  | stack, diff_stack, [] => .ok (stack, diff_stack)
  | stack, diff_stack, (func, indices) :: rest =>
    match argValues stack indices with
    | .error er => .error er
    | .ok args =>
      match argValues diff_stack indices with
      | .error er => .error er
      | .ok diff_args =>
        match forwardDiffTerms func args diff_args with
        | .error er => .error er
        | .ok diff_terms =>
          diffLoop (stack ++ [func.apply args])
            (diff_stack ++ [combineTerms diff_terms]) rest

/-- `_diff(expression, sym)`: derivative by forward accumulation over
`evaluation_form(expression, {})`; atoms seed the unit atom if identical to
`sym`, else the zero atom; the result is the derivative of the last slot. -/
def _diff (expression sym : Expr) : Except PyErr Expr :=
  match evaluation_form expression emptyOperators with
  | .error er => .error er
  | .ok (stack, operations) =>
    let diff_stack := stack.map fun expr => if expr = sym then one else zero
    match diffLoop stack diff_stack operations with
    | .error er => .error er
    | .ok (_, diff_stack1) =>
      match diff_stack1.getLast? with
      | some d => .ok d
      | none => .error .indexError

/-- Combination of an accumulated adjoint list: a single term stands alone,
otherwise `Add(*terms)` (which for an empty list is the nullary `Add()`).
The source repeats this two-line pattern for `ddf` and for the final
result. -/
def combineAdjoint : List Expr → Expr
  | [t] => t
  | ts => Add.call ts

/-- `diff_terms[i].append(t)`: appends to the accumulator list at slot `i`
(`IndexError` when out of range, which the loop invariants rule out). -/
def appendAt (dt : List (List Expr)) (i : Nat) (t : Expr) :
    Except PyErr (List (List Expr)) :=
  if i < dt.length then .ok (dt.set i (dt.getD i [] ++ [t]))
  else .error .indexError

/-- The `Add` branch of the reverse loop: the adjoint passes through
unchanged to every argument slot. -/
def distributeAdd (ddf : Expr) : List Nat → List (List Expr) →
    Except PyErr (List (List Expr))
  | [], dt => .ok dt
  | i :: rest, dt =>
    match appendAt dt i ddf with
    | .error er => .error er
    | .ok dt1 => distributeAdd ddf rest dt1

/-- The per-position adjoint contribution of the `Mul` branch of the
reverse loop: the other factors and the adjoint, with factors equal to the
unit atom elided; an empty product is the unit atom, a singleton stands
alone, otherwise `Mul(*otherargs)`. -/
def mulAdjoint (args : List Expr) (n : Nat) (ddf : Expr) : Expr :=
  match ((args.take n ++ args.drop (n + 1)) ++ [ddf]).filter (fun arg => arg != one) with
  | [] => one
  | [t] => t
  | ts => Mul.call ts

/-- The `Mul` branch of the reverse loop. -/
def distributeMul (args : List Expr) (ddf : Expr) : List Nat → Nat → List (List Expr) →
    Except PyErr (List (List Expr))
  | [], _, dt => .ok dt
  | i :: rest, n, dt =>
    match appendAt dt i (mulAdjoint args n ddf) with
    | .error er => .error er
    | .ok dt1 => distributeMul args ddf rest (n + 1) dt1

/-- The default branch of the reverse loop: each argument position looks up
`derivatives[(func, n)]` (`KeyError` when absent — in particular position 1
of every `Pow` node), applies it, and multiplies by the adjoint unless the
adjoint is the unit atom. -/
def distributeNamed (func : Func) (args : List Expr) (ddf : Expr) :
    List Nat → Nat → List (List Expr) → Except PyErr (List (List Expr))
  | [], _, dt => .ok dt
  | i :: rest, n, dt =>
    match derivativesGet func n with
    | none => .error .keyError
    | some pdiff_func =>
      match pdiff_func args with
      | .error er => .error er
      | .ok pdiff =>
        let ddfi := if ddf = one then pdiff else Mul.call [ddf, pdiff]
        match appendAt dt i ddfi with
        | .error er => .error er
        | .ok dt1 => distributeNamed func args ddf rest (n + 1) dt1

/-- The reverse pass: walk the operations backwards; pop the current
operation's accumulated adjoint list, combine it, and distribute it to the
argument slots according to the operation's kind. -/
def reverseLoop (stack : List Expr) : List (Func × List Nat) → List (List Expr) →
    Except PyErr (List (List Expr))
  | [], diff_terms => .ok diff_terms
  | (func, indices) :: restRev, diff_terms =>
    match argValues stack indices with
    | .error er => .error er
    | .ok args =>
      match diff_terms.getLast? with
      | none => .error .indexError
      | some terms =>
        let ddf := combineAdjoint terms
        let dt := diff_terms.dropLast
        match
          (if func.eqExpr Add then distributeAdd ddf indices dt
           else if func.eqExpr Mul then distributeMul args ddf indices 0 dt
           else distributeNamed func args ddf indices 0 dt) with
        | .error er => .error er
        | .ok dt1 => reverseLoop stack restRev dt1

/-- `_diff_reverse(expr, sym)`: reverse-mode accumulation.  If `sym` is not
among the atom slots (`stack.index` raises `ValueError`), return the zero
atom.  Otherwise rerun the forward primal pass, seed the output slot's
adjoint list with the unit atom, walk the operations in reverse, and
combine the accumulated adjoints of `sym`'s slot. -/
def _diff_reverse (expr sym : Expr) : Except PyErr Expr :=
  match evaluation_form expr emptyOperators with
  | .error er => .error er
  | .ok (stack0, operations) =>
    if sym ∈ stack0 then
      match runOps operations stack0 with
      | .error er => .error er
      | .ok stack =>
        let diff_terms := List.replicate (stack.length - 1) ([] : List Expr) ++ [[one]]
        match reverseLoop stack operations.reverse diff_terms with
        | .error er => .error er
        | .ok dt =>
          match dt.get? (List.indexOf sym stack0) with
          | none => .error .indexError
          | some terms_final => .ok (combineAdjoint terms_final)
    else .ok zero

/-- Repeated differentiation: apply the chosen single-step algorithm
`ntimes` times sequentially (forward mode unless `reverse`; the Python
signature defaults `ntimes` to 1 and `reverse` to False). -/
def diff (expr sym : Expr) (ntimes : Nat) (reverse : Bool) :
    Except PyErr Expr :=
  let rec go : Nat → Expr → Except PyErr Expr
    | 0, deriv => .ok deriv
    | n + 1, deriv =>
      match (if reverse then _diff_reverse deriv sym else _diff deriv sym) with
      | .error er => .error er
      | .ok d => go n d
  go ntimes expr

-- ----------------------------------------------------------------- --
--   Slot assignment of the linear form                               --
-- ----------------------------------------------------------------- --

/-- The atom slots of `evaluation_form(e, operators)` before the optional
transformation: the childless linearized nodes that are not table keys. -/
def atomSlots (e : Expr) (operators : Operators) : List Expr :=
  (topological_sort e).filter fun s => !operators.isKey s && s.children.isEmpty

/-- The compound nodes of the linear form, in operation order. -/
def compSlots (e : Expr) (operators : Operators) : List Expr :=
  (topological_sort e).filter fun s => !operators.isKey s && !s.children.isEmpty

/-- All slots in order: atom slots first, then one slot per operation. -/
def slots (e : Expr) (operators : Operators) : List Expr :=
  atomSlots e operators ++ compSlots e operators

/-- The operation records of `evaluation_form(e, operators)`: one per
compound node, with the resolved function slot and each argument's slot
index. -/
def opsOf (e : Expr) (operators : Operators) : List (Func × List Nat) :=
  (compSlots e operators).map fun c =>
    (resolveFunc operators c.headE, c.argsE.map fun a => List.indexOf a (slots e operators))

theorem slots_nodup (e : Expr) (operators : Operators) : (slots e operators).Nodup := by
  rw [slots, List.nodup_append]
  refine ⟨(topological_sort_nodup e).filter _, (topological_sort_nodup e).filter _, ?_⟩
  intro a ha hb
  have h1 := (List.mem_filter.mp ha).2
  have h2 := (List.mem_filter.mp hb).2
  simp only [Bool.and_eq_true, Bool.not_eq_true'] at h1 h2
  rw [h1.2] at h2
  exact absurd h2.2 (by simp)

theorem argsE_subset_children {a c : Expr} (h : a ∈ c.argsE) : a ∈ c.children := by
  cases c with
  | atom t v => simp [Expr.argsE] at h
  | raw v => simp [Expr.argsE] at h
  | tree hd args => exact List.mem_cons_of_mem _ h

/-- A unique occurrence splits a duplicate-free list in exactly one way. -/
theorem nodup_split_unique {L p1 q1 p2 q2 : List Expr} {c : Expr} (h : L.Nodup)
    (h1 : L = p1 ++ c :: q1) (h2 : L = p2 ++ c :: q2) : p1 = p2 ∧ q1 = q2 := by
  have hc1 : c ∉ p1 := by
    rw [h1, List.nodup_append] at h
    exact fun hmem => h.2.2 hmem (List.mem_cons_self _ _)
  have hc2 : c ∉ p2 := by
    rw [h2, List.nodup_append] at h
    exact fun hmem => h.2.2 hmem (List.mem_cons_self _ _)
  have hl1 : p1.length = List.indexOf c L := by
    rw [h1, List.indexOf_append_of_not_mem hc1, List.indexOf_cons_self]
    omega
  have hl2 : p2.length = List.indexOf c L := by
    rw [h2, List.indexOf_append_of_not_mem hc2, List.indexOf_cons_self]
    omega
  obtain ⟨hp, hq⟩ := List.append_inj (h1.symm.trans h2) (hl1.trans hl2.symm)
  exact ⟨hp, by simpa using hq⟩

/-- Arguments point strictly backwards: every argument of a compound slot
occurs among the atom slots or among the earlier compound slots.  This is
where topological ordering of the linearization enters. -/
theorem args_point_backwards {e : Expr} {operators : Operators}
    (hargs : ∀ s ∈ subexprs e, ∀ a ∈ s.argsE, operators.isKey a = false) :
    ∀ r1 c r2, compSlots e operators = r1 ++ c :: r2 →
      ∀ a ∈ c.argsE, a ∈ atomSlots e operators ++ r1 := by
  intro r1 c r2 hsplit a ha
  have hc_mem : c ∈ compSlots e operators := by rw [hsplit]; simp
  obtain ⟨hc_ts, hc_pred⟩ := List.mem_filter.mp hc_mem
  have hc_sub : c ∈ subexprs e := (mem_topological_sort e).mp hc_ts
  have ha_child : a ∈ c.children := argsE_subset_children ha
  have ha_key : operators.isKey a = false := hargs c hc_sub a ha
  obtain ⟨l1, l2, hts⟩ := List.append_of_mem hc_ts
  have ha_l1 : a ∈ l1 := topological_sort_ordered e l1 c l2 hts a ha_child
  have ha_ts : a ∈ topological_sort e := by rw [hts]; exact List.mem_append_left _ ha_l1
  by_cases hae : a.children.isEmpty
  · refine List.mem_append_left _ (List.mem_filter.mpr ⟨ha_ts, ?_⟩)
    simp [ha_key, hae]
  · -- a is itself a compound slot occurring in the filtered prefix
    have hcomp_split : compSlots e operators =
        (l1.filter fun s => !operators.isKey s && !s.children.isEmpty) ++ c ::
        (l2.filter fun s => !operators.isKey s && !s.children.isEmpty) := by
      rw [compSlots, hts, List.filter_append]
      congr 1
      rw [List.filter_cons]
      simp only [hc_pred]
      simp
    obtain ⟨hr1, _⟩ := nodup_split_unique ((topological_sort_nodup e).filter _)
      hsplit hcomp_split
    refine List.mem_append_right _ ?_
    rw [hr1]
    refine List.mem_filter.mpr ⟨ha_l1, ?_⟩
    simp [ha_key, hae]

/-- Association-list lookup over `zip` with a contiguous index range. -/
theorem lookup_zip_range' (a : Expr) :
    ∀ (l : List Expr) (s : Nat),
      List.lookup a (l.zip (List.range' s l.length)) =
        if a ∈ l then some (s + List.indexOf a l) else none := by
  intro l
  induction l with
  | nil => intro s; simp
  | cons b rest ih =>
    intro s
    have hrange : List.range' s (b :: rest).length = s :: List.range' (s + 1) rest.length := by
      simp [List.range'_succ]
    rw [hrange, List.zip_cons_cons]
    by_cases hab : a = b
    · subst hab
      simp [List.lookup, List.indexOf_cons_self]
    · have hne : (a == b) = false := by simp [hab]
      have hlk : List.lookup a ((b, s) :: rest.zip (List.range' (s + 1) rest.length)) =
          List.lookup a (rest.zip (List.range' (s + 1) rest.length)) := by
        simp [List.lookup, hne]
      rw [hlk, ih (s + 1)]
      by_cases hmem : a ∈ rest
      · rw [if_pos hmem, if_pos (List.mem_cons_of_mem _ hmem),
          List.indexOf_cons_ne _ (fun h => hab h.symm)]
        congr 1
        omega
      · rw [if_neg hmem, if_neg (by simp [hab, hmem])]

/-- The invariant on the evolving `indices` dictionary: it maps exactly the
already-assigned slots to their positions. -/
def IndOK (indices : List (Expr × Nat)) (assigned : List Expr) : Prop :=
  ∀ a, List.lookup a indices =
    if a ∈ assigned then some (List.indexOf a assigned) else none

theorem indOK_init (atoms : List Expr) :
    IndOK (atoms.zip (List.range atoms.length)) atoms := by
  intro a
  rw [List.range_eq_range', lookup_zip_range']
  simp

theorem indOK_snoc {indices : List (Expr × Nat)} {assigned : List Expr} {c : Expr}
    (h : IndOK indices assigned) (hc : c ∉ assigned) :
    IndOK ((c, assigned.length) :: indices) (assigned ++ [c]) := by
  intro a
  by_cases hac : a = c
  · subst hac
    have hlk : List.lookup a ((a, assigned.length) :: indices) = some assigned.length := by
      simp [List.lookup]
    rw [hlk, if_pos (by simp), List.indexOf_append_of_not_mem hc, List.indexOf_cons_self]
    simp
  · have hne : (a == c) = false := by simp [hac]
    have hlk : List.lookup a ((c, assigned.length) :: indices) = List.lookup a indices := by
      simp [List.lookup, hne]
    rw [hlk, h a]
    by_cases hmem : a ∈ assigned
    · rw [if_pos hmem, if_pos (List.mem_append_left _ hmem),
        List.indexOf_append_of_mem hmem]
    · rw [if_neg hmem, if_neg (by simp [hmem, hac])]

theorem argIndices_ok {indices : List (Expr × Nat)} {assigned : List Expr}
    (hok : IndOK indices assigned) (S rest0 : List Expr) (hS : S = assigned ++ rest0) :
    ∀ (as : List Expr), (∀ a ∈ as, a ∈ assigned) →
      argIndices indices as = .ok (as.map fun a => List.indexOf a S) := by
  intro as
  induction as with
  | nil => intro _; rfl
  | cons a rest ih =>
    intro hmem
    have ha : a ∈ assigned := hmem a (by simp)
    have hidx : List.indexOf a S = List.indexOf a assigned := by
      rw [hS, List.indexOf_append_of_mem ha]
    simp only [argIndices]
    rw [hok a, if_pos ha, ih fun a' ha' => hmem a' (List.mem_cons_of_mem _ ha'),
      List.map_cons, hidx]
    rfl

/-- Characterization of the compound loop: with the dictionary invariant and
backward-pointing arguments, `buildOps` succeeds and records, for each
compound, its resolved head and its arguments' slot indices. -/
theorem buildOps_ok (operators : Operators) (S : List Expr) (hnd : S.Nodup) :
    ∀ (rest assigned : List Expr) (indices : List (Expr × Nat)),
      S = assigned ++ rest →
      IndOK indices assigned →
      (∀ r1 c r2, rest = r1 ++ c :: r2 → ∀ a ∈ c.argsE, a ∈ assigned ++ r1) →
      buildOps operators indices assigned.length rest =
        .ok (rest.map fun c =>
          (resolveFunc operators c.headE, c.argsE.map fun a => List.indexOf a S)) := by
  intro rest
  induction rest with
  | nil => intro assigned indices _ _ _; rfl
  | cons c rest' ih =>
    intro assigned indices hS hok hclosed
    have hargs_c : ∀ a ∈ c.argsE, a ∈ assigned := by
      intro a ha
      have := hclosed [] c rest' (by simp) a ha
      simpa using this
    have hargIdx := argIndices_ok hok S (c :: rest') hS c.argsE hargs_c
    have hcnot : c ∉ assigned := by
      intro hmem
      rw [hS] at hnd
      rw [List.nodup_append] at hnd
      exact hnd.2.2 hmem (List.mem_cons_self _ _)
    have hok' : IndOK ((c, assigned.length) :: indices) (assigned ++ [c]) :=
      indOK_snoc hok hcnot
    have hS' : S = (assigned ++ [c]) ++ rest' := by rw [hS]; simp
    have hclosed' : ∀ r1 c' r2, rest' = r1 ++ c' :: r2 →
        ∀ a ∈ c'.argsE, a ∈ (assigned ++ [c]) ++ r1 := by
      intro r1 c' r2 hr a ha
      have := hclosed (c :: r1) c' r2 (by rw [hr]; rfl) a ha
      simpa using this
    have hrec := ih (assigned ++ [c]) ((c, assigned.length) :: indices) hS' hok' hclosed'
    rw [buildOps, hargIdx]
    have hlen : (assigned ++ [c]).length = assigned.length + 1 := by simp
    rw [hlen] at hrec
    rw [hrec]
    rfl

/-- `evaluation_form` succeeds and yields exactly the slot assignment
whenever table keys occur only in head position (no argument of a reachable
node is a key).  The atom slots are returned transformed. -/
theorem evaluation_form_ok (e : Expr) (operators : Operators)
    (hargs : ∀ s ∈ subexprs e, ∀ a ∈ s.argsE, operators.isKey a = false) :
    evaluation_form e operators =
      .ok ((atomSlots e operators).map (transformAtom operators), opsOf e operators) := by
  have hbuild := buildOps_ok operators (slots e operators) (slots_nodup e operators)
    (compSlots e operators) (atomSlots e operators)
    ((atomSlots e operators).zip (List.range (atomSlots e operators).length))
    rfl (indOK_init _) (args_point_backwards hargs)
  rw [evaluation_form]
  rw [show ((topological_sort e).filter fun s => !operators.isKey s && s.children.isEmpty) =
      atomSlots e operators from rfl,
    show ((topological_sort e).filter fun s => !operators.isKey s && !s.children.isEmpty) =
      compSlots e operators from rfl]
  rw [hbuild]
  rfl

-- ----------------------------------------------------------------- --
--   Replaying the operations                                         --
-- ----------------------------------------------------------------- --

theorem argValues_map (W : Expr → Expr) {S done rest0 : List Expr} (hS : S = done ++ rest0) :
    ∀ (as : List Expr), (∀ a ∈ as, a ∈ done) →
      argValues (done.map W) (as.map fun a => List.indexOf a S) = .ok (as.map W) := by
  intro as
  induction as with
  | nil => intro _; rfl
  | cons a rest ih =>
    intro hmem
    have ha : a ∈ done := hmem a (by simp)
    have hidx : List.indexOf a S = List.indexOf a done := by
      rw [hS, List.indexOf_append_of_mem ha]
    have hlt : List.indexOf a done < done.length := List.indexOf_lt_length.mpr ha
    have hget : (done.map W).get? (List.indexOf a done) = some (W a) := by
      rw [List.get?_map, List.get?_eq_get hlt]
      simp only [Option.map_some']
      congr 1
      have := List.getElem_indexOf hlt
      simpa using this
    rw [List.map_cons, argValues, hidx, hget,
      ih fun a' ha' => hmem a' (List.mem_cons_of_mem _ ha')]
    rfl

/-- Replaying the recorded operations over a stack of per-slot values `W`:
if `W` is compatible with each operation (applying the resolved function to
the argument values yields the compound's value), the run succeeds and
produces the value of every slot in order. -/
theorem runOps_replay (operators : Operators) (W : Expr → Expr) (S : List Expr) :
    ∀ (rest done : List Expr),
      S = done ++ rest →
      (∀ r1 c r2, rest = r1 ++ c :: r2 → ∀ a ∈ c.argsE, a ∈ done ++ r1) →
      (∀ c ∈ rest, (resolveFunc operators c.headE).apply (c.argsE.map W) = W c) →
      runOps (rest.map fun c =>
          (resolveFunc operators c.headE, c.argsE.map fun a => List.indexOf a S))
        (done.map W) = .ok (S.map W) := by
  intro rest
  induction rest with
  | nil => intro done hS _ _; rw [hS]; simp [runOps]
  | cons c rest' ih =>
    intro done hS hclosed hW
    have hargs_c : ∀ a ∈ c.argsE, a ∈ done := by
      intro a ha
      have := hclosed [] c rest' (by simp) a ha
      simpa using this
    have hfetch := argValues_map W hS c.argsE hargs_c
    have happ : (resolveFunc operators c.headE).apply (c.argsE.map W) = W c :=
      hW c (by simp)
    have hstack : done.map W ++ [(resolveFunc operators c.headE).apply (c.argsE.map W)] =
        (done ++ [c]).map W := by
      rw [List.map_append, happ]
      rfl
    have hS' : S = (done ++ [c]) ++ rest' := by rw [hS]; simp
    have hclosed' : ∀ r1 c' r2, rest' = r1 ++ c' :: r2 →
        ∀ a ∈ c'.argsE, a ∈ (done ++ [c]) ++ r1 := by
      intro r1 c' r2 hr a ha
      have := hclosed (c :: r1) c' r2 (by rw [hr]; rfl) a ha
      simpa using this
    rw [List.map_cons]
    simp only [runOps, hfetch]
    rw [hstack]
    exact ih (done ++ [c]) hS' hclosed' fun c' hc' => hW c' (List.mem_cons_of_mem _ hc')

/-- The slot list ends with the requested expression when the root is not a
table key. -/
theorem slots_last (e : Expr) (operators : Operators)
    (hroot : operators.isKey e = false) :
    ∃ l, slots e operators = l ++ [e] := by
  obtain ⟨Δ, hts, hnotin, _, hmem, _⟩ := topological_sort_spec e
  cases e with
  | tree hd args =>
    refine ⟨atomSlots (Expr.tree hd args) operators ++
      (Δ.filter fun s => !operators.isKey s && !s.children.isEmpty), ?_⟩
    rw [slots, compSlots, hts, List.filter_append]
    rw [List.filter_cons]
    have : (!operators.isKey (Expr.tree hd args) &&
        !(Expr.tree hd args).children.isEmpty) = true := by
      simp [hroot, Expr.children]
    rw [this]
    simp
  | atom t v =>
    have hΔ : Δ = [] := by
      rcases Δ with _ | ⟨d, Δ'⟩
      · rfl
      · exfalso
        have : d ∈ subexprs (Expr.atom t v) := (hmem d).mp (by simp)
        simp only [subexprs, List.mem_singleton] at this
        exact hnotin (this ▸ by simp)
    subst hΔ
    simp only [List.nil_append] at hts
    refine ⟨[], ?_⟩
    rw [slots, atomSlots, compSlots, hts]
    rw [List.filter_singleton, List.filter_singleton]
    have h1 : (!operators.isKey (Expr.atom t v) &&
        (Expr.atom t v).children.isEmpty) = true := by simp [hroot, Expr.children]
    have h2 : (!operators.isKey (Expr.atom t v) &&
        !(Expr.atom t v).children.isEmpty) = false := by simp [Expr.children]
    rw [h1, h2]
    rfl
  | raw v =>
    have hΔ : Δ = [] := by
      rcases Δ with _ | ⟨d, Δ'⟩
      · rfl
      · exfalso
        have : d ∈ subexprs (Expr.raw v) := (hmem d).mp (by simp)
        simp only [subexprs, List.mem_singleton] at this
        exact hnotin (this ▸ by simp)
    subst hΔ
    simp only [List.nil_append] at hts
    refine ⟨[], ?_⟩
    rw [slots, atomSlots, compSlots, hts]
    rw [List.filter_singleton, List.filter_singleton]
    have h1 : (!operators.isKey (Expr.raw v) &&
        (Expr.raw v).children.isEmpty) = true := by simp [hroot, Expr.children]
    have h2 : (!operators.isKey (Expr.raw v) &&
        !(Expr.raw v).children.isEmpty) = false := by simp [Expr.children]
    rw [h1, h2]
    rfl

theorem denoteList_eq_map (operators : Operators) (values : Expr → Option Expr) :
    ∀ as : List Expr, denoteList operators values as = as.map (denote operators values)
  | [] => rfl
  | a :: rest => by
    rw [denoteList, denoteList_eq_map operators values rest, List.map_cons]

theorem denote_leaf {operators : Operators} {values : Expr → Option Expr} {a : Expr}
    (ha : a.children.isEmpty = true) :
    denote operators values a =
      (values (transformAtom operators a)).getD (transformAtom operators a) := by
  cases a with
  | atom t v => rfl
  | raw v => rfl
  | tree hd args => simp [Expr.children] at ha

theorem denote_node {operators : Operators} {values : Expr → Option Expr} {c : Expr}
    (hc : c.children.isEmpty = false) :
    (resolveFunc operators c.headE).apply (c.argsE.map (denote operators values)) =
      denote operators values c := by
  cases c with
  | atom t v => simp [Expr.children] at hc
  | raw v => simp [Expr.children] at hc
  | tree hd args =>
    simp only [Expr.headE, Expr.argsE, resolveFunc, denote, ← denoteList_eq_map]
    cases operators.headOp hd with
    | none => rfl
    | some f => rfl

/-- Master theorem of the generic evaluator: whenever table keys occur only
in head position (the root and the arguments of reachable nodes are not
keys), `evaluate` succeeds and returns the compositional denotation — the
linear form is computed, bindings are substituted into matching slots, the
operations execute in listed order and the last slot, which holds the value
of the root, is returned; every unmapped head acts as identity graph
reconstruction. -/
theorem evaluate_denote (e : Expr) (operators : Operators) (values : Expr → Option Expr)
    (hroot : operators.isKey e = false)
    (hargs : ∀ s ∈ subexprs e, ∀ a ∈ s.argsE, operators.isKey a = false) :
    evaluate e operators values = .ok (denote operators values e) := by
  have hform := evaluation_form_ok e operators hargs
  have hstack : ((atomSlots e operators).map (transformAtom operators)).map
      (fun s => (values s).getD s) = (atomSlots e operators).map (denote operators values) := by
    rw [List.map_map]
    refine List.map_congr_left ?_
    intro a ha
    have hleaf : a.children.isEmpty = true := by
      have := (List.mem_filter.mp ha).2
      simp only [Bool.and_eq_true] at this
      exact this.2
    rw [denote_leaf hleaf]
    rfl
  have hW : ∀ c ∈ compSlots e operators,
      (resolveFunc operators c.headE).apply (c.argsE.map (denote operators values)) =
        denote operators values c := by
    intro c hc
    have hne : c.children.isEmpty = false := by
      have := (List.mem_filter.mp hc).2
      simp only [Bool.and_eq_true, Bool.not_eq_true'] at this
      exact this.2
    exact denote_node hne
  have hrun := runOps_replay operators (denote operators values) (slots e operators)
    (compSlots e operators) (atomSlots e operators) rfl (args_point_backwards hargs) hW
  obtain ⟨l, hlast⟩ := slots_last e operators hroot
  simp only [evaluate, hform, hstack]
  rw [show opsOf e operators = (compSlots e operators).map fun c =>
      (resolveFunc operators c.headE, c.argsE.map fun a =>
        List.indexOf a (slots e operators)) from rfl]
  rw [hrun, hlast, List.map_append]
  simp [List.getLast?_concat]

/-- C7.  Evaluation semantics: for every expression (of `Expression` nodes),
operator table and bindings — with table keys used only in head position,
which is how every table of the repository is shaped — `evaluate` computes
the linear form, substitutes each binding for its matching slot, executes
the operations strictly in their listed order, and returns the last slot's
value, which equals the compositional denotation `denote`: nodes are
combined bottom-up, and a compound head absent from the operator table is
applied as identity graph reconstruction (partial evaluation) rather than
raising an error. -/
theorem evaluate_semantics (e : Expr) (operators : Operators) (values : Expr → Option Expr)
    (hall : e.allExpression = true)
    (hroot : operators.isKey e = false)
    (hargs : ∀ s ∈ subexprs e, ∀ a ∈ s.argsE, operators.isKey a = false) :
    evaluate e operators values = .ok (denote operators values e) :=
  evaluate_denote e operators values hroot hargs

/-- Witness for C7: evaluating `Add(x, one)` under a table mapping `Integer`
to a raw conversion and `Add` to native integer addition, with the binding
`x ↦ 5`, returns the native value `6`. -/
theorem evaluate_semantics_witness :
    evaluate (Add.call [x, one])
      ⟨fun t => if t = Integer then some (fun v => .raw v) else none,
       fun h => if h = Add then
         some (fun args => .raw (.int (args.foldl (fun acc a =>
           match a with
           | .raw (.int n) => acc + n
           | _ => acc) 0)))
         else none⟩
      (fun s => if s = x then some (.raw (.int 5)) else none) =
      .ok (.raw (.int 6)) := by
  rw [evaluate_semantics _ _ _ (by decide) (by decide) (by decide)]
  decide

mutual

theorem denote_empty : ∀ e : Expr, denote emptyOperators (fun _ => none) e = e
  | .atom t v => rfl
  | .raw v => rfl
  | .tree hd args => by
    show Expr.tree hd (denoteList emptyOperators (fun _ => none) args) = Expr.tree hd args
    rw [denoteList_empty args]

theorem denoteList_empty : ∀ as : List Expr, denoteList emptyOperators (fun _ => none) as = as
  | [] => rfl
  | a :: rest => by
    rw [denoteList, denote_empty a, denoteList_empty rest]

end

/-- C10.  Implicit identity-algebra round trip: for every expression (of
`Expression` nodes), `evaluate(e, {}, {})` returns `e` itself — reference-
identical by the interning invariant, since structural equality models
identity.  With the empty table and empty bindings every atom slot passes
through unchanged and every compound operation reconstructs its own
canonical interned node, so the last slot holds exactly `e`. -/
theorem evaluate_empty_identity (e : Expr) (hall : e.allExpression = true) :
    evaluate e emptyOperators (fun _ => none) = .ok e := by
  rw [evaluate_denote e emptyOperators (fun _ => none) rfl fun s _ a _ => rfl,
    denote_empty e]

/-- Witness for C10 at a concrete shared-subgraph expression. -/
theorem evaluate_empty_identity_witness :
    evaluate (Mul.call [sin.call [x], x]) emptyOperators (fun _ => none) =
      .ok (Mul.call [sin.call [x], x]) :=
  evaluate_empty_identity (Mul.call [sin.call [x], x]) (by decide)

theorem transformAtom_empty (a : Expr) : transformAtom emptyOperators a = a := by
  cases a <;> rfl

/-- The intended round trip holds: replaying the operations of the
empty-table form as graph-construction calls reproduces the canonical DAG.
This confirms the docstring of `rebuild` and isolates the slip in its loop
header as the only obstruction. -/
theorem rebuildIntended_roundtrip (e : Expr) (hall : e.allExpression = true) :
    (match evaluation_form e emptyOperators with
     | .ok (atoms, ops) => rebuildIntended atoms ops
     | .error er => .error er) = .ok e := by
  have hform := evaluation_form_ok e emptyOperators fun s _ a _ => rfl
  have hatoms : (atomSlots e emptyOperators).map (transformAtom emptyOperators) =
      (atomSlots e emptyOperators).map id :=
    List.map_congr_left fun a _ => transformAtom_empty a
  have hW : ∀ c ∈ compSlots e emptyOperators,
      (resolveFunc emptyOperators c.headE).apply (c.argsE.map id) = id c := by
    intro c hc
    have hne : c.children.isEmpty = false := by
      have := (List.mem_filter.mp hc).2
      simp only [Bool.and_eq_true, Bool.not_eq_true'] at this
      exact this.2
    cases c with
    | atom t v => simp [Expr.children] at hne
    | raw v => simp [Expr.children] at hne
    | tree hd args =>
      simp only [Expr.headE, Expr.argsE, resolveFunc, emptyOperators, Func.apply, List.map_id]
      rfl
  have hrun := runOps_replay emptyOperators id (slots e emptyOperators)
    (compSlots e emptyOperators) (atomSlots e emptyOperators) rfl
    (args_point_backwards fun s _ a _ => rfl) hW
  obtain ⟨l, hlast⟩ := slots_last e emptyOperators rfl
  simp only [hform, rebuildIntended, hatoms, List.map_id]
  rw [show opsOf e emptyOperators = (compSlots e emptyOperators).map fun c =>
      (resolveFunc emptyOperators c.headE, c.argsE.map fun a =>
        List.indexOf a (slots e emptyOperators)) from rfl]
  rw [show atomSlots e emptyOperators = (atomSlots e emptyOperators).map id by
    rw [List.map_id]]
  rw [hrun, List.map_id, hlast]
  simp [List.getLast?_concat]

/-- C2 (code bug).  `rebuild(*evaluation_form(sin(x), {}))` raises
`TypeError`: the loop `for indices in evaluation` binds each
`(function, arg_indices)` pair itself to `indices`, and `stack[i]` then
subscripts the list with the function slot, which is not an integer.  The
claimed round trip (also the docstring of `rebuild`) is the intent; see
`rebuildIntended_roundtrip` for the proof that replaying the operations as
graph-construction calls does reproduce the canonical DAG. -/
theorem rebuild_roundtrip_raises :
    (match evaluation_form (sin.call [x]) emptyOperators with
     | .ok (atoms, ops) => rebuild atoms ops
     | .error er => .error er) = .error .typeError := by decide

/-- C9.  Reverse mode on an absent variable: for every expression `e` (of
`Expression` nodes) and every `sym` that does not occur as a node of `e`,
`stack.index(sym)` raises `ValueError` and `_diff_reverse` returns exactly
the zero atom. -/
theorem diff_reverse_absent_variable (e sym : Expr) (hall : e.allExpression = true)
    (habsent : sym ∉ subexprs e) : _diff_reverse e sym = .ok zero := by
  have hform := evaluation_form_ok e emptyOperators fun s _ a _ => rfl
  have hnotin : sym ∉ (atomSlots e emptyOperators).map (transformAtom emptyOperators) := by
    intro hmem
    rw [List.map_congr_left fun a _ => transformAtom_empty a] at hmem
    rw [List.map_id'] at hmem
    exact habsent ((mem_topological_sort e).mp (List.mem_filter.mp hmem).1)
  simp only [_diff_reverse, hform]
  rw [if_neg hnotin]

/-- Witness for C9: `diff_reverse(sin(y), x)` is exactly the zero atom. -/
theorem diff_reverse_absent_variable_witness : _diff_reverse (sin.call [y]) x = .ok zero :=
  diff_reverse_absent_variable (sin.call [y]) x (by decide) (by decide)

/-- C8.  Simplification exactness of forward mode: `diff_forward(x, x)` is
exactly the interned unit atom `Integer(1)` — no multiplication-by-one or
addition-of-zero wrapper nodes — and `diff_forward(Integer(5), x)` is
exactly the interned zero atom. -/
theorem diff_forward_simplification_exact :
    _diff x x = .ok one ∧ _diff (Integer.call (.int 5)) x = .ok zero := by decide

/-- Counterexample for C5 as stated: differentiating `Pow(x, x)` with
respect to `x` in reverse mode does not raise the assertion failure that
the spec names `MalformedDerivative` (the guard `assert diff_args[1] == zero`
exists only in forward mode); it raises `KeyError` instead, from the lookup
`derivatives[(Pow, 1)]`, which precedes any exponent inspection. -/
theorem exponent_guard_counterexample :
    _diff_reverse (Pow.call [x, x]) x ≠ .error .assertionError ∧
    _diff_reverse (Pow.call [x, x]) x = .error .keyError := by decide

/-- C5 as amended: differentiating `Pow(x, x)` with respect to `x` fails
fast in both modes rather than returning a symbolic result, but with
different exceptions: forward mode raises the assertion failure
(`MalformedDerivative` in the spec's naming) from its exponent guard, while
reverse mode raises `KeyError` from the missing `(Pow, 1)` entry of the
chain-rule table — a failure that any power node triggers, whether or not
its exponent depends on the variable. -/
theorem exponent_guard_amended :
    _diff (Pow.call [x, x]) x = .error .assertionError ∧
    _diff_reverse (Pow.call [x, x]) x = .error .keyError := by decide

/-- C4 (code bug).  Forward/reverse agreement fails on the `^` operation:
reverse mode raises `KeyError` on any expression containing a power node —
the distribution loop looks up `derivatives[(Pow, 1)]`, which does not
exist — here on `Pow(x, 2)`; and forward mode computes the derivative of
`Pow(sin(x), 2)` as `Mul(2, Pow(sin(x), Add(2, -1)))`, omitting the factor
`d(base) = cos(x)` required by the chain rule (the `Pow` branch never
multiplies by `diff_args[0]`), so even where both modes return, the claimed
1e-9 numerical agreement with a correct reverse mode could not hold. -/
theorem forward_reverse_disagree_on_pow :
    _diff_reverse (Pow.call [x, Integer.call (.int 2)]) x = .error .keyError ∧
    _diff (Pow.call [sin.call [x], Integer.call (.int 2)]) x =
      .ok (Mul.call [Integer.call (.int 2),
        Pow.call [sin.call [x], Add.call [Integer.call (.int 2), negone]]]) := by decide

/-- Counterexample for C6 as stated: the forward-mode product rule does not
elide identity factors.  `diff_forward(Mul(one, x), x)` returns the wrapper
node `Mul(one, one)` — the factor equal to the identity atom is kept and
the derivative is inserted in its position — whereas the claimed elision
would return exactly the unit atom (as reverse mode in fact does). -/
theorem product_rule_counterexample :
    _diff (Mul.call [one, x]) x = .ok (Mul.call [one, one]) ∧
    Mul.call [one, one] ≠ one := by decide

-- ----------------------------------------------------------------- --
--   Commutative-ring semantics for the product-rule claim            --
-- ----------------------------------------------------------------- --

mutual

/-- Interpretation of expressions in a commutative ring: `Add`-headed nodes
are sums of their arguments' values, `Mul`-headed nodes products; every
other node is valued by the uninterpreted assignment `v`. -/
def semR {R : Type} [CommRing R] (v : Expr → R) : Expr → R
  | .tree h args =>
    if h = Add then semSum v args
    else if h = Mul then semProd v args
    else v (.tree h args)
  | .atom t val => v (.atom t val)
  | .raw val => v (.raw val)

def semSum {R : Type} [CommRing R] (v : Expr → R) : List Expr → R
  | [] => 0
  | a :: rest => semR v a + semSum v rest

def semProd {R : Type} [CommRing R] (v : Expr → R) : List Expr → R
  | [] => 1
  | a :: rest => semR v a * semProd v rest

end

section ProductRule

variable {R : Type} [CommRing R] (v : Expr → R)

theorem semR_atom (t : AtomType) (val : PyLit) : semR v (.atom t val) = v (.atom t val) := by
  rw [semR]

theorem semR_mulCall (args : List Expr) : semR v (Mul.call args) = semProd v args := by
  rw [show Mul.call args = Expr.tree Mul args from rfl, semR,
    if_neg (by decide : ¬ (Mul = Add)), if_pos rfl]

theorem semR_addCall (args : List Expr) : semR v (Add.call args) = semSum v args := by
  rw [show Add.call args = Expr.tree Add args from rfl, semR, if_pos rfl]

theorem semProd_append (l1 l2 : List Expr) :
    semProd v (l1 ++ l2) = semProd v l1 * semProd v l2 := by
  induction l1 with
  | nil => simp [semProd]
  | cons a rest ih => rw [List.cons_append, semProd, semProd, ih, mul_assoc]

theorem semProd_filter_one (hv1 : v one = 1) (l : List Expr) :
    semProd v (l.filter fun a => a != one) = semProd v l := by
  induction l with
  | nil => rfl
  | cons a rest ih =>
    by_cases ha : a = one
    · subst ha
      rw [show List.filter (fun a => a != one) (one :: rest) =
          List.filter (fun a => a != one) rest from by simp]
      rw [ih]
      rw [show semProd v (one :: rest) = semR v one * semProd v rest from rfl]
      rw [show semR v one = v one from semR_atom v Integer (.int 1), hv1, one_mul]
    · rw [show List.filter (fun a => a != one) (a :: rest) =
          a :: List.filter (fun a => a != one) rest from by simp [ha]]
      rw [show semProd v (a :: List.filter (fun a => a != one) rest) =
          semR v a * semProd v (List.filter (fun a => a != one) rest) from rfl]
      rw [ih]
      rw [show semProd v (a :: rest) = semR v a * semProd v rest from rfl]

/-- The mathematical product rule over the linear slots: the sum, over each
factor, of (product of the prefix already passed) × (product of the other,
later factors) × (that factor's derivative value), written with an
accumulated prefix product. -/
def specPR : R → List Expr → List Expr → R
  | _, _, [] => 0
  | _, [], _ :: _ => 0
  | pre, a :: args', da :: dargs' =>
    pre * semProd v args' * semR v da + specPR (pre * semR v a) args' dargs'

theorem semR_combineTerms (hv0 : v zero = 0) (ts : List Expr) :
    semR v (combineTerms ts) = semSum v ts := by
  match ts with
  | [] =>
    rw [show combineTerms [] = zero from rfl,
      show semR v zero = v zero from semR_atom v Integer (.int 0), hv0]
    rfl
  | [t] =>
    rw [show combineTerms [t] = t from rfl,
      show semSum v [t] = semR v t + semSum v [] from rfl,
      show semSum v ([] : List Expr) = 0 from rfl, add_zero]
  | t1 :: t2 :: rest =>
    rw [show combineTerms (t1 :: t2 :: rest) = Add.call (t1 :: t2 :: rest) from rfl,
      semR_addCall]

/-- Semantics of the reverse-mode per-factor adjoint contribution: despite
the elision of unit factors and the collapsing of empty and singleton
products, its value is exactly (product of the other factors) × (adjoint). -/
theorem mulAdjoint_sem (hv1 : v one = 1) (args : List Expr) (n : Nat) (ddf : Expr) :
    semR v (mulAdjoint args n ddf) =
      semProd v (args.take n ++ args.drop (n + 1)) * semR v ddf := by
  have hfull : semProd v (((args.take n ++ args.drop (n + 1)) ++ [ddf]).filter
      fun arg => arg != one) = semProd v (args.take n ++ args.drop (n + 1)) * semR v ddf := by
    rw [semProd_filter_one v hv1, semProd_append]
    rw [show semProd v [ddf] = semR v ddf * semProd v [] from rfl,
      show semProd v ([] : List Expr) = 1 from rfl, mul_one]
  rw [mulAdjoint]
  rcases hf : ((args.take n ++ args.drop (n + 1)) ++ [ddf]).filter
      (fun arg => arg != one) with _ | ⟨t, _ | ⟨t2, ts⟩⟩
  · rw [hf] at hfull
    rw [show semR v one = v one from semR_atom v Integer (.int 1), hv1]
    rw [show semProd v ([] : List Expr) = 1 from rfl] at hfull
    exact hfull
  · rw [hf] at hfull
    rw [show semProd v [t] = semR v t * semProd v [] from rfl,
      show semProd v ([] : List Expr) = 1 from rfl, mul_one] at hfull
    exact hfull
  · rw [hf] at hfull
    rw [semR_mulCall]
    exact hfull

/-- Semantics of the forward-mode `Mul` branch: summing the constructed
terms (with zero-derivative factors dropped and each derivative inserted in
its factor's position) yields the accumulated product rule. -/
theorem mulTerms_sem (hv0 : v zero = 0) (args : List Expr) :
    ∀ (dargs : List Expr) (n : Nat), n + dargs.length = args.length →
      semSum v (mulTerms args n dargs) =
        specPR v (semProd v (args.take n)) (args.drop n) dargs := by
  intro dargs
  induction dargs with
  | nil =>
    intro n hn
    rw [show mulTerms args n [] = [] from rfl,
      show semSum v ([] : List Expr) = 0 from rfl]
    rw [show args.drop n = [] from List.drop_eq_nil_of_le (by simp at hn; omega)]
    rfl
  | cons da rest ih =>
    intro n hn
    have hlt : n < args.length := by
      simp only [List.length_cons] at hn
      omega
    have hdrop : args.drop n = args[n] :: args.drop (n + 1) :=
      List.drop_eq_getElem_cons hlt
    have htake : args.take (n + 1) = args.take n ++ [args[n]] := by
      rw [List.take_succ, List.getElem?_eq_getElem hlt]
      rfl
    have hpre : semProd v (args.take (n + 1)) = semProd v (args.take n) * semR v args[n] := by
      rw [htake, semProd_append,
        show semProd v [args[n]] = semR v args[n] * semProd v [] from rfl,
        show semProd v ([] : List Expr) = 1 from rfl, mul_one]
    have hspec : specPR v (semProd v (args.take n)) (args.drop n) (da :: rest) =
        semProd v (args.take n) * semProd v (args.drop (n + 1)) * semR v da +
          specPR v (semProd v (args.take n) * semR v args[n]) (args.drop (n + 1)) rest := by
      rw [hdrop]
      rfl
    have hn' : n + 1 + rest.length = args.length := by
      simp only [List.length_cons] at hn
      omega
    by_cases hda : da = zero
    · subst hda
      rw [show mulTerms args n (zero :: rest) = mulTerms args (n + 1) rest from by
        rw [mulTerms, if_pos rfl]]
      rw [ih (n + 1) hn', hspec, hpre]
      rw [show semR v zero = v zero from semR_atom v Integer (.int 0), hv0]
      ring
    · rw [show mulTerms args n (da :: rest) =
          Mul.call (args.take n ++ da :: args.drop (n + 1)) :: mulTerms args (n + 1) rest
          from by rw [mulTerms, if_neg hda]]
      rw [show semSum v (Mul.call (args.take n ++ da :: args.drop (n + 1)) ::
          mulTerms args (n + 1) rest) =
          semR v (Mul.call (args.take n ++ da :: args.drop (n + 1))) +
          semSum v (mulTerms args (n + 1) rest) from rfl]
      rw [semR_mulCall, ih (n + 1) hn', hspec, hpre, semProd_append]
      rw [show semProd v (da :: args.drop (n + 1)) =
        semR v da * semProd v (args.drop (n + 1)) from rfl]
      ring

end ProductRule

/-- C6 as amended.  Product rule with elision, as the code implements it:
in any commutative-ring interpretation (unit and zero atoms valued 1 and 0),
(a) the derivative the forward loop produces for an n-ary product —
`combineTerms (mulTerms args 0 diff_args)`, dropping zero-derivative terms
and inserting each factor's derivative in place without eliding identity
factors — has exactly the value of the product rule: the sum over factors
of (product of the other factors) × (that factor's derivative); and
(b) the adjoint contribution the reverse loop distributes to each factor —
`mulAdjoint`, which does elide identity factors — has exactly the value
(product of the other factors) × (adjoint).  The structural elision claimed
for the forward mode fails (see the counterexample), but both modes are
semantically the claimed product rule. -/
theorem product_rule_with_elision_amended {R : Type} [CommRing R] (v : Expr → R)
    (hv0 : v zero = 0) (hv1 : v one = 1) :
    (∀ (args dargs : List Expr), dargs.length = args.length →
      semR v (combineTerms (mulTerms args 0 dargs)) =
        specPR v 1 args dargs) ∧
    (∀ (args : List Expr) (n : Nat) (ddf : Expr),
      semR v (mulAdjoint args n ddf) =
        semProd v (args.take n ++ args.drop (n + 1)) * semR v ddf) := by
  constructor
  · intro args dargs hlen
    rw [semR_combineTerms v hv0, mulTerms_sem v hv0 args dargs 0 (by omega)]
    rw [show args.take 0 = [] from rfl, show args.drop 0 = args from rfl,
      show semProd v ([] : List Expr) = 1 from rfl]
  · exact mulAdjoint_sem v hv1

/-- Witness for the amended C6 over the integers, at the factors
`(one, x)` with derivatives `(zero, one)` and at the adjoint contribution
of factor 1 of `(one, x)`. -/
theorem product_rule_with_elision_amended_witness :
    letI v : Expr → Int := fun e => if e = x then 5 else if e = one then 1 else 0
    semR v (combineTerms (mulTerms [one, x] 0 [zero, one])) =
      specPR v 1 [one, x] [zero, one] ∧
    semR v (mulAdjoint [one, x] 1 one) =
      semProd v ([one, x].take 1 ++ [one, x].drop 2) * semR v one := by
  refine ⟨(product_rule_with_elision_amended _ rfl rfl).1 [one, x] [zero, one] rfl,
    (product_rule_with_elision_amended _ rfl rfl).2 [one, x] 1 one⟩

-- ----------------------------------------------------------------- --
--   Heap model of the interning tables                               --
-- ----------------------------------------------------------------- --

/-!
For the global-uniqueness claim, object identity must be modelled
explicitly rather than through the `Expr` embedding it justifies.  A
`Heap` carries an allocation counter and the two weak-value dictionaries:
`all_atoms` maps atom keys `(atom_type, value, type(value))` — the third
component folded into `PyLit` — to object ids, and `all_expressions` maps
tuples of children object ids (Python tuples of `Expression`s compare by
element identity) to object ids.  `__new__` is lookup-or-allocate; the
`WeakValueDictionary` may drop an entry once its object dies, modelled by
the reclaim operations.  Liveness of an interned object is exactly the
persistence of its table entry along the subsequent steps.
-/

structure Heap where
  nextId : Nat
  all_atoms : List ((AtomType × PyLit) × Nat)
  all_expressions : List (List Nat × Nat)
deriving DecidableEq, Repr

/-- `AtomExpression.__new__`: return the previously created atom for the
key `(atom_type, value, type(value))` if the table still holds one,
otherwise allocate a fresh object and register it. -/
def AtomExpression_new (h : Heap) (atom_type : AtomType) (value : PyLit) : Heap × Nat :=
  match List.lookup (atom_type, value) h.all_atoms with
  | some previous => (h, previous)
  | none =>
    ({ nextId := h.nextId + 1,
       all_atoms := ((atom_type, value), h.nextId) :: h.all_atoms,
       all_expressions := h.all_expressions }, h.nextId)

/-- `TreeExpression.__new__`: return the previously created compound for
this exact tuple of children (compared by identity) if the table still
holds one, otherwise allocate a fresh object and register it. -/
def TreeExpression_new (h : Heap) (children : List Nat) : Heap × Nat :=
  match List.lookup children h.all_expressions with
  | some previous => (h, previous)
  | none =>
    ({ nextId := h.nextId + 1,
       all_atoms := h.all_atoms,
       all_expressions := (children, h.nextId) :: h.all_expressions }, h.nextId)

/-- The `WeakValueDictionary` drops the entry of a dead atom. -/
def reclaimAtomEntry (h : Heap) (k : AtomType × PyLit) : Heap :=
  { h with all_atoms := h.all_atoms.filter fun p => p.1 != k }

/-- The `WeakValueDictionary` drops the entry of a dead compound. -/
def reclaimTreeEntry (h : Heap) (k : List Nat) : Heap :=
  { h with all_expressions := h.all_expressions.filter fun p => p.1 != k }

/-- Any interleaving of construction requests and reclamations that keeps
the protected atom key `ak` and the protected compound key `tk` live (no
reclaim step ever drops them — which is what liveness of their objects
means for a weak-value table). -/
inductive InternSteps (ak : Option (AtomType × PyLit)) (tk : Option (List Nat)) :
    Heap → Heap → Prop where
  | refl (h : Heap) : InternSteps ak tk h h
  | atomNew (h h' : Heap) (t : AtomType) (v : PyLit) :
      InternSteps ak tk h h' → InternSteps ak tk h (AtomExpression_new h' t v).1
  | treeNew (h h' : Heap) (cs : List Nat) :
      InternSteps ak tk h h' → InternSteps ak tk h (TreeExpression_new h' cs).1
  | reclaimAtom (h h' : Heap) (k : AtomType × PyLit) :
      InternSteps ak tk h h' → some k ≠ ak → InternSteps ak tk h (reclaimAtomEntry h' k)
  | reclaimTree (h h' : Heap) (k : List Nat) :
      InternSteps ak tk h h' → some k ≠ tk → InternSteps ak tk h (reclaimTreeEntry h' k)

theorem lookup_filter_ne {α β : Type} [BEq α] [LawfulBEq α] {k k' : α} (hne : k ≠ k') :
    ∀ l : List (α × β),
      List.lookup k (l.filter fun p => p.1 != k') = List.lookup k l
  | [] => rfl
  | (k0, v0) :: rest => by
    by_cases hk0 : k0 = k'
    · subst hk0
      rw [show List.filter (fun p => p.1 != k0) ((k0, v0) :: rest) =
          List.filter (fun p => p.1 != k0) rest from by simp]
      rw [lookup_filter_ne hne rest]
      rw [show List.lookup k ((k0, v0) :: rest) = List.lookup k rest from by
        simp [List.lookup, show (k == k0) = false from by simp [hne]]]
    · rw [show List.filter (fun p => p.1 != k') ((k0, v0) :: rest) =
          (k0, v0) :: List.filter (fun p => p.1 != k') rest from by simp [hk0]]
      by_cases hkk : k = k0
      · subst hkk
        simp [List.lookup]
      · rw [show List.lookup k ((k0, v0) :: List.filter (fun p => p.1 != k') rest) =
            List.lookup k (List.filter (fun p => p.1 != k') rest) from by
          simp [List.lookup, show (k == k0) = false from by simp [hkk]]]
        rw [show List.lookup k ((k0, v0) :: rest) = List.lookup k rest from by
          simp [List.lookup, show (k == k0) = false from by simp [hkk]]]
        exact lookup_filter_ne hne rest

/-- The binding of a live atom key is preserved by every step: later
constructions never overwrite or duplicate it, and reclamation never
touches a live key. -/
theorem lookup_atom_preserved {ak : Option (AtomType × PyLit)} {tk : Option (List Nat)}
    {h1 h2 : Heap} (steps : InternSteps ak tk h1 h2) {k : AtomType × PyLit} {i : Nat}
    (hk : ak = some k) (hl : List.lookup k h1.all_atoms = some i) :
    List.lookup k h2.all_atoms = some i := by
  induction steps with
  | refl => exact hl
  | atomNew h' t v _ ih =>
    rw [AtomExpression_new]
    rcases hprev : List.lookup (t, v) h'.all_atoms with _ | j
    · by_cases hkey : k = (t, v)
      · rw [hkey] at ih
        rw [ih] at hprev
        cases hprev
      · simp only []
        rw [show List.lookup k (((t, v), h'.nextId) :: h'.all_atoms) =
            List.lookup k h'.all_atoms from by
          simp [List.lookup, show (k == (t, v)) = false from by simp [hkey]]]
        exact ih
    · exact ih
  | treeNew h' cs _ ih =>
    rw [TreeExpression_new]
    rcases hprev : List.lookup cs h'.all_expressions with _ | j
    · exact ih
    · exact ih
  | reclaimAtom h' k' _ hne ih =>
    rw [reclaimAtomEntry]
    have hkne : k ≠ k' := by
      intro hkk
      exact hne (by rw [hkk] at hk; exact hk.symm)
    rw [show ({ h' with all_atoms := h'.all_atoms.filter fun p => p.1 != k' } :
        Heap).all_atoms = h'.all_atoms.filter fun p => p.1 != k' from rfl]
    rw [lookup_filter_ne hkne h'.all_atoms]
    exact ih
  | reclaimTree h' k' _ hne ih => exact ih

/-- The binding of a live compound key is preserved by every step. -/
theorem lookup_tree_preserved {ak : Option (AtomType × PyLit)} {tk : Option (List Nat)}
    {h1 h2 : Heap} (steps : InternSteps ak tk h1 h2) {k : List Nat} {i : Nat}
    (hk : tk = some k) (hl : List.lookup k h1.all_expressions = some i) :
    List.lookup k h2.all_expressions = some i := by
  induction steps with
  | refl => exact hl
  | atomNew h' t v _ ih =>
    rw [AtomExpression_new]
    rcases hprev : List.lookup (t, v) h'.all_atoms with _ | j
    · exact ih
    · exact ih
  | treeNew h' cs _ ih =>
    rw [TreeExpression_new]
    rcases hprev : List.lookup cs h'.all_expressions with _ | j
    · by_cases hkey : k = cs
      · rw [hkey] at ih
        rw [ih] at hprev
        cases hprev
      · simp only []
        rw [show List.lookup k ((cs, h'.nextId) :: h'.all_expressions) =
            List.lookup k h'.all_expressions from by
          simp [List.lookup, show (k == cs) = false from by simp [hkey]]]
        exact ih
    · exact ih
  | reclaimAtom h' k' _ hne ih => exact ih
  | reclaimTree h' k' _ hne ih =>
    rw [reclaimTreeEntry]
    have hkne : k ≠ k' := by
      intro hkk
      exact hne (by rw [hkk] at hk; exact hk.symm)
    rw [show ({ h' with all_expressions :=
        h'.all_expressions.filter fun p => p.1 != k' } : Heap).all_expressions =
        h'.all_expressions.filter fun p => p.1 != k' from rfl]
    rw [lookup_filter_ne hkne h'.all_expressions]
    exact ih

/-- A construction request leaves the table holding its own key. -/
theorem atom_new_registers {h h1 : Heap} {t : AtomType} {v : PyLit} {i : Nat}
    (heq : AtomExpression_new h t v = (h1, i)) :
    List.lookup (t, v) h1.all_atoms = some i := by
  rw [AtomExpression_new] at heq
  rcases hprev : List.lookup (t, v) h.all_atoms with _ | j
  · rw [hprev] at heq
    cases heq
    simp [List.lookup]
  · rw [hprev] at heq
    cases heq
    exact hprev

theorem tree_new_registers {h h1 : Heap} {cs : List Nat} {i : Nat}
    (heq : TreeExpression_new h cs = (h1, i)) :
    List.lookup cs h1.all_expressions = some i := by
  rw [TreeExpression_new] at heq
  rcases hprev : List.lookup cs h.all_expressions with _ | j
  · rw [hprev] at heq
    cases heq
    simp [List.lookup]
  · rw [hprev] at heq
    cases heq
    exact hprev

/-- C1.  Global-uniqueness invariant of interning: a construction request
whose key matches an earlier request returns the very same object
(identity modelled by the allocation id), across any interleaving of other
constructions and reclamations, as long as the first result is still live
(its weak-table entry has not been reclaimed).  Stated for atom interning
on `(atom_type, value, type(value))` keys and for compound interning on
`(head, *args)` children tuples compared by identity. -/
theorem interning_global_uniqueness :
    (∀ (h : Heap) (t : AtomType) (v : PyLit) (h1 : Heap) (i : Nat) (h2 : Heap),
      AtomExpression_new h t v = (h1, i) →
      InternSteps (some (t, v)) none h1 h2 →
      AtomExpression_new h2 t v = (h2, i)) ∧
    (∀ (h : Heap) (cs : List Nat) (h1 : Heap) (i : Nat) (h2 : Heap),
      TreeExpression_new h cs = (h1, i) →
      InternSteps none (some cs) h1 h2 →
      TreeExpression_new h2 cs = (h2, i)) := by
  constructor
  · intro h t v h1 i h2 heq steps
    have hreg := atom_new_registers heq
    have hlive := lookup_atom_preserved steps rfl hreg
    rw [AtomExpression_new, hlive]
  · intro h cs h1 i h2 heq steps
    have hreg := tree_new_registers heq
    have hlive := lookup_tree_preserved steps rfl hreg
    rw [TreeExpression_new, hlive]

/-- Witness for C1: intern the atom `Symbol("x")` in the empty heap, then
intern `Symbol("y")` and reclaim `Symbol("y")`'s entry; re-interning
`Symbol("x")` returns the same object id and does not change the heap.
Likewise a compound keyed by the children ids `[0, 1]` is returned intact
on an immediate second request. -/
theorem interning_global_uniqueness_witness :
    letI h1 := (AtomExpression_new ⟨0, [], []⟩ Symbol (.str "x")).1
    letI h2 := reclaimAtomEntry (AtomExpression_new h1 Symbol (.str "y")).1
      (Symbol, .str "y")
    AtomExpression_new h2 Symbol (.str "x") = (h2, 0) ∧
    (letI g1 := (TreeExpression_new ⟨2, [], []⟩ [0, 1]).1
     TreeExpression_new g1 [0, 1] = (g1, 2)) :=
  ⟨interning_global_uniqueness.1 ⟨0, [], []⟩ Symbol (.str "x") _ 0 _ rfl
    (.reclaimAtom _ _ (Symbol, .str "y")
      (.atomNew _ _ Symbol (.str "y") (.refl _)) (by decide)),
   interning_global_uniqueness.2 ⟨2, [], []⟩ [0, 1] _ 2 _ rfl (.refl _)⟩

end Demonstration

namespace Demonstration

-- sanity checks of the model against hand-traced Python behaviour
def two : Expr := Integer.call (.int 2)
def five : Expr := Integer.call (.int 5)

-- C8 forward simplification
example : _diff x x = .ok one := by decide
example : _diff five x = .ok zero := by decide

-- C9 reverse on absent variable
example : _diff_reverse (sin.call [y]) x = .ok zero := by decide

-- C5: forward asserts, reverse KeyErrors on Pow(x, x)
example : _diff (Pow.call [x, x]) x = .error .assertionError := by decide
example : _diff_reverse (Pow.call [x, x]) x = .error .keyError := by decide

-- C4: reverse KeyErrors on any Pow; forward drops the chain factor
example : _diff_reverse (Pow.call [x, two]) x = .error .keyError := by decide
example : _diff (Pow.call [sin.call [x], two]) x =
    .ok (Mul.call [two, Pow.call [sin.call [x], Add.call [two, negone]]]) := by decide
-- forward on Pow(x, 2) is fine (base derivative is one)
example : _diff (Pow.call [x, two]) x =
    .ok (Mul.call [two, Pow.call [x, Add.call [two, negone]]]) := by decide

-- C6: identity factor not elided in forward mode
example : _diff (Mul.call [one, x]) x = .ok (Mul.call [one, one]) := by decide
-- reverse mode elides it
example : _diff_reverse (Mul.call [one, x]) x = .ok one := by decide

-- C2: rebuild raises TypeError on any compound expression
example :
    (match evaluation_form (sin.call [x]) emptyOperators with
     | .ok (atoms, ops) => rebuild atoms ops
     | .error er => .error er) = .error .typeError := by decide

-- C10 concrete identity check
example : evaluate (Mul.call [one, x]) emptyOperators (fun _ => none) =
    .ok (Mul.call [one, x]) := by decide

-- forward mode on sin(x)*x: d = sin(x) + x*cos(x)-ish per the code's term order
-- code: Mul branch terms: n=0 (da = cos x): Mul(cos x?, ...) wait sin(x)*x = Mul(sin x, x)
example : _diff (Mul.call [sin.call [x], x]) x =
    .ok (Add.call [Mul.call [cos.call [x], x], Mul.call [sin.call [x], one]]) := by decide

-- reverse mode agrees semantically but builds different structure
example : _diff_reverse (Mul.call [sin.call [x], x]) x =
    .ok (Add.call [sin.call [x], Mul.call [x, cos.call [x]]]) := by decide

end Demonstration
